import Mathlib

/-!
Shallow embedding of the subtitle generator core (src/main.py): the time
codec (convert_to_srt_time and strptime of '%H:%M:%S,%f'), the cue model
(class Subtitle), the fragment coalescer (create_srt_content), the track
merger (merge_srt_content) and the chunk offset extraction
(extract_time_from_filename), together with the spec-side predicates the
claims need.  Python strings are modelled as List Char where the proofs
need structure, wrapped into String at the function boundaries.
-/

namespace SubGen

/-- Python whitespace test, restricted to the ASCII whitespace characters
str.strip removes: space, tab, newline, carriage return, vertical tab,
form feed.  The texts this program strips contain no other whitespace. -/
def isPyWs (c : Char) : Bool :=
  c = ' ' || c = '\t' || c = '\n' || c = '\r' || c = '\x0b' || c = '\x0c'

/-- Python str.strip(): drop leading and trailing whitespace. -/
def pyStrip (cs : List Char) : List Char :=
  ((cs.dropWhile isPyWs).reverse.dropWhile isPyWs).reverse

/-- One step of Python str.split: prepend a character to the first part of
an already-computed part list. -/
def consFirst (c : Char) : List (List Char) → List (List Char)
  | [] => [[c]]
  | p :: ps => (c :: p) :: ps

/-- Fuelled model of Python str.split(sep) for a nonempty separator: scan
left to right and cut at each leftmost non-overlapping occurrence of sep.
Fuel larger than the input length never runs out (each step consumes at
least one character). -/
def splitFuel (sep : List Char) : Nat → List Char → List (List Char)
  | 0, cs => [cs]
  | _ + 1, [] => [[]]
  | fuel + 1, c :: rest =>
    if sep.isPrefixOf (c :: rest) then
      [] :: splitFuel sep fuel (List.drop (sep.length - 1) rest)
    else
      consFirst c (splitFuel sep fuel rest)

/-- Python s.split(sep), sep nonempty. -/
def pySplit (sep : List Char) (cs : List Char) : List (List Char) :=
  splitFuel sep (cs.length + 1) cs

/-- Numeric value of a decimal digit character. -/
def digitVal (c : Char) : Nat := c.toNat - '0'.toNat

/-- Python int() on a string of decimal digits. -/
def natOfDigits (cs : List Char) : Nat :=
  cs.foldl (fun acc c => 10 * acc + digitVal c) 0

/-- Decimal digit characters of a natural number (fuelled; fuel n+1 always
suffices since the argument shrinks by a factor of ten each step). -/
def natDigitsAux : Nat → Nat → List Char
  | 0, _ => []
  | fuel + 1, n =>
    if n < 10 then [Nat.digitChar n]
    else natDigitsAux fuel (n / 10) ++ [Nat.digitChar (n % 10)]

/-- Decimal digit characters of a natural number. -/
def natDigits (n : Nat) : List Char := natDigitsAux (n + 1) n

/-- Python str(n) for a non-negative integer. -/
def natStr (n : Nat) : String := ⟨natDigits n⟩

/-- Python "{:0w}".format(n): decimal digits left-padded with zeros. -/
def padZero (w : Nat) (n : Nat) : List Char :=
  List.replicate (w - (natDigits n).length) '0' ++ natDigits n

/-- Round a rational to the nearest integer, ties to even: the rounding
Python applies when a float seconds value is turned into whole microseconds
by datetime.timedelta(seconds=x). -/
def roundHalfEven (q : ℚ) : ℤ :=
  if q - (⌊q⌋ : ℚ) < 1/2 then ⌊q⌋
  else if 1/2 < q - (⌊q⌋ : ℚ) then ⌊q⌋ + 1
  else if ⌊q⌋ % 2 = 0 then ⌊q⌋ else ⌊q⌋ + 1

/-- Total whole microseconds of a non-negative seconds value, as stored by
datetime.timedelta(seconds=x). -/
def usOfSeconds (x : ℚ) : Nat := (roundHalfEven (x * 1000000)).toNat

/-- The "{:02}:{:02}:{:02},{:03}".format(h, m, s, ms) shape shared by
convert_to_srt_time and Subtitle.time_to_str. -/
def timeChars (h m s ms : Nat) : List Char :=
  padZero 2 h ++ ':' :: (padZero 2 m ++ ':' :: (padZero 2 s ++ ',' :: padZero 3 ms))

/-- main.py convert_to_srt_time: format non-negative seconds as
"HH:MM:SS,mmm".  timedelta normalizes to (days, seconds, microseconds)
with the sub-microsecond part rounded half-to-even; divmod splits the
day-seconds, the days are folded into the hours (so the hour field is
unbounded) and the microseconds are truncated to milliseconds. -/
def convert_to_srt_time (x : ℚ) : String :=
  let u := usOfSeconds x
  let days := u / 86400000000
  let secs := u / 1000000 % 86400
  let micro := u % 1000000
  ⟨timeChars (secs / 3600 + days * 24) (secs % 3600 / 60) (secs % 60) (micro / 1000)⟩

/-- Model of datetime.datetime.strptime(s, '%H:%M:%S,%f').time(), returning
the parsed time of day as total microseconds since midnight.  CPython
compiles the format to the anchored regex
(2[0-3]|[0-1]d|d):([0-5]d|d):(6[0-1]|[0-5]d|d),([0-9]\x7b1,6\x7d) (d the
digit class), rejects unconverted trailing data, pads the fraction group on
the right to six digits, and finally the datetime constructor re-checks
second <= 59 (the regex alone would admit leap seconds 60 and 61, which the
constructor then rejects, so both paths fail).  Since the digit groups
consume only digits and the literals only ':' and ',', with backtracking
the regex accepts exactly: a maximal run of one or two digits per time
field whose value fits the bound, and a one-to-six digit fraction run
ending the string. -/
def strptimeChars (cs : List Char) : Option Nat :=
  let hs := cs.takeWhile Char.isDigit
  if hs.length = 0 || 2 < hs.length || 23 < natOfDigits hs then none else
  match cs.dropWhile Char.isDigit with
  | [] => none
  | c1 :: r2 =>
    if c1 = ':' then
      let ms := r2.takeWhile Char.isDigit
      if ms.length = 0 || 2 < ms.length || 59 < natOfDigits ms then none else
      match r2.dropWhile Char.isDigit with
      | [] => none
      | c2 :: r4 =>
        if c2 = ':' then
          let ss := r4.takeWhile Char.isDigit
          if ss.length = 0 || 2 < ss.length || 59 < natOfDigits ss then none else
          match r4.dropWhile Char.isDigit with
          | [] => none
          | c3 :: r6 =>
            if c3 = ',' then
              let fs := r6.takeWhile Char.isDigit
              if fs.length = 0 || 6 < fs.length || r6.dropWhile Char.isDigit ≠ [] then none else
              some (((natOfDigits hs * 60 + natOfDigits ms) * 60 + natOfDigits ss) * 1000000
                    + natOfDigits fs * 10 ^ (6 - fs.length))
            else none
        else none
    else none

/-- strptime of '%H:%M:%S,%f' on a string. -/
def strptimeTime (s : String) : Option Nat := strptimeChars s.data

/-- One subtitle cue, main.py's class Subtitle.  The Python attribute named
end is called stop here (end is a Lean keyword).  start and stop are
datetime.time values represented as total microseconds since midnight
(datetime.time orders lexicographically on (hour, minute, second,
microsecond), which is exactly the order of total microseconds); index is
the raw text token, as from_srt_block keeps it. -/
structure Subtitle where
  index : String
  start : Nat
  stop : Nat
  text : String
deriving DecidableEq

/-- Python "\n".join. -/
def joinNl : List (List Char) → List Char
  | [] => []
  | [p] => p
  | p :: ps => p ++ '\n' :: joinNl ps

/-- main.py Subtitle.parse_time_range: split on " --> " into exactly two
parts (tuple unpacking raises otherwise), strip each and parse it. -/
def parse_time_range (line : List Char) : Option (Nat × Nat) :=
  match pySplit [' ', '-', '-', '>', ' '] line with
  | [a, b] =>
    match strptimeTime ⟨pyStrip a⟩, strptimeTime ⟨pyStrip b⟩ with
    | some s, some e => some (s, e)
    | _, _ => none
  | _ => none

/-- main.py Subtitle.from_srt_block: strip the block and split it into
lines; line 0 is the raw index token, line 1 the time range, the remaining
lines joined by newlines and stripped are the text.  Fails (IndexError or
ValueError in Python) when fewer than two lines are present or the time
range is malformed. -/
def from_srt_block (b : List Char) : Option Subtitle :=
  match pySplit ['\n'] (pyStrip b) with
  | l0 :: l1 :: rest =>
    match parse_time_range l1 with
    | some (s, e) => some ⟨⟨l0⟩, s, e, ⟨pyStrip (joinNl rest)⟩⟩
    | none => none
  | _ => none

/-- main.py Subtitle.time_to_str: strftime('%H:%M:%S,%f') with the last
three characters dropped, i.e. microseconds truncated to milliseconds. -/
def time_to_str (t : Nat) : List Char :=
  timeChars (t / 3600000000) (t % 3600000000 / 60000000) (t % 60000000 / 1000000)
    (t % 1000000 / 1000)

/-- main.py Subtitle.to_srt_block: "{index}\n{start} --> {end}\n{text}\n". -/
def to_srt_block (c : Subtitle) : List Char :=
  c.index.data ++ '\n' :: time_to_str c.start
    ++ ' ' :: '-' :: '-' :: '>' :: ' ' :: time_to_str c.stop
    ++ '\n' :: c.text.data ++ ['\n']

/-- Sequence a fallible parse over a list (in Python an exception anywhere
aborts the whole parse). -/
def optMap {α β : Type} (f : α → Option β) : List α → Option (List β)
  | [] => some []
  | a :: rest =>
    match f a, optMap f rest with
    | some b, some bs => some (b :: bs)
    | _, _ => none

/-- main.py parse_srt: split the track on blank lines, keep the blocks with
non-blank content, and parse each. -/
def parse_srt (s : String) : Option (List Subtitle) :=
  optMap from_srt_block ((pySplit ['\n', '\n'] s.data).filter (fun b => !(pyStrip b).isEmpty))

/-- The serialized merged track, "\n\n".join(sub.to_srt_block() ...). -/
def serChars : List Subtitle → List Char
  | [] => []
  | [c] => to_srt_block c
  | c :: cs => to_srt_block c ++ '\n' :: '\n' :: serChars cs

/-- Whole-track serialization used by merge_srt_content's output path. -/
def serializeTrack (subs : List Subtitle) : String := ⟨serChars subs⟩

/-- The strict interval overlap test of merge_srt_content:
sub.start < sub2.end and sub2.start < sub.end. -/
def overlaps (e n : Subtitle) : Bool := e.start < n.stop && n.start < e.stop

/-- Insert a cue into a list sorted by start, before the first cue whose
start is not smaller.  Together with sortByStart this is a stable sort by
start, so it computes the same list as Python's stable
sorted(key=lambda sub: sub.start). -/
def insertByStart (x : Subtitle) : List Subtitle → List Subtitle
  | [] => [x]
  | y :: ys => if x.start ≤ y.start then x :: y :: ys else y :: insertByStart x ys

/-- Stable sort by start (insertion sort). -/
def sortByStart : List Subtitle → List Subtitle
  | [] => []
  | x :: xs => insertByStart x (sortByStart xs)

/-- The re-index loop of merge_srt_content: the cue at 1-based position i
gets index str(i); every other field is kept. -/
def reindexFrom (i : Nat) : List Subtitle → List Subtitle
  | [] => []
  | c :: cs => ⟨natStr i, c.start, c.stop, c.text⟩ :: reindexFrom (i + 1) cs

/-- Re-index a whole working set, 1-based. -/
def reindexAll (l : List Subtitle) : List Subtitle := reindexFrom 1 l

/-- One iteration of merge_srt_content's loop over the new track: drop the
cues the new cue overlaps, append it, re-sort by start, re-index. -/
def mergeStep (w : List Subtitle) (n : Subtitle) : List Subtitle :=
  reindexAll (sortByStart (w.filter (fun e => !overlaps e n) ++ [n]))

/-- Cue-level body of main.py merge_srt_content. -/
def mergeCues (subs1 subs2 : List Subtitle) : List Subtitle :=
  subs2.foldl mergeStep subs1

/-- main.py merge_srt_content on the two track texts; none models a Python
parse exception escaping to the caller. -/
def merge_srt_content (s1 s2 : String) : Option String :=
  match parse_srt s1, parse_srt s2 with
  | some subs1, some subs2 => some (serializeTrack (mergeCues subs1 subs2))
  | _, _ => none

/-- One raw transcript fragment (a segment of a chunk's JSON): float start
and end seconds modelled as rationals, plus its text. -/
structure Fragment where
  start : ℚ
  stop : ℚ
  text : String
deriving DecidableEq

/-- One coalesced entry, the data generate_subtitle_entry is called with. -/
structure Entry where
  index : Nat
  start : ℚ
  stop : ℚ
  text : String
deriving DecidableEq

/-- The fragment-walking loop of create_srt_content.  The option is the
run state (current_text, start_time, end_time); None mirrors the initial
Python state, and the final flush after the loop closes the open run. -/
def coalesceLoop : List Fragment → Nat → Option (String × ℚ × ℚ) → List Entry
  | [], _, none => []
  | [], i, some (t, st, en) => [⟨i, st, en, t⟩]
  | f :: fs, i, none => coalesceLoop fs i (some (f.text, f.start, f.stop))
  | f :: fs, i, some (t, st, en) =>
    if t ≠ f.text then
      ⟨i, st, en, t⟩ :: coalesceLoop fs (i + 1) (some (f.text, f.start, f.stop))
    else
      coalesceLoop fs i (some (t, st, f.stop))

/-- The cue sequence create_srt_content emits for the concatenated,
offset-shifted fragment list. -/
def coalesce (frags : List Fragment) : List Entry := coalesceLoop frags 1 none

/-- Core of extract_time_from_filename: match the last 18 characters
against six digits, an underscore, six digits, ".json", and read the first
six-digit group as HHMMSS via divmod(v, 10000) and divmod(rem, 100). -/
def extractCore (cs : List Char) : Option Nat :=
  match cs.drop (cs.length - 18) with
  | [a1, a2, a3, a4, a5, a6, '_', b1, b2, b3, b4, b5, b6, '.', 'j', 's', 'o', 'n'] =>
    if a1.isDigit && a2.isDigit && a3.isDigit && a4.isDigit && a5.isDigit && a6.isDigit
        && b1.isDigit && b2.isDigit && b3.isDigit && b4.isDigit && b5.isDigit && b6.isDigit then
      some (natOfDigits [a1, a2, a3, a4, a5, a6] / 10000 * 3600
            + natOfDigits [a1, a2, a3, a4, a5, a6] % 10000 / 100 * 60
            + natOfDigits [a1, a2, a3, a4, a5, a6] % 100)
    else none
  | _ => none

/-- main.py extract_time_from_filename:
re.search(r'(d\x7b6\x7d)_(d\x7b6\x7d)\.json$', filename) (d the digit
class), then HHMMSS conversion of group 1.  The regex end anchor matches at
the end of the string or just before one final newline, so the pattern may
also be followed by a single trailing newline. -/
def extract_time_from_filename (filename : String) : Option Nat :=
  match extractCore filename.data with
  | some v => some v
  | none =>
    match filename.data.getLast? with
    | some '\n' => extractCore filename.data.dropLast
    | _ => none

/-- Per-chunk offset application in create_srt_content: the extracted
offset (whole seconds) is added to every fragment's start and end. -/
def shiftFragment (off : ℚ) (f : Fragment) : Fragment :=
  ⟨f.start + off, f.stop + off, f.text⟩

/-- The segments one chunk contributes: shifted when its filename yields an
offset, unchanged (and the mismatch merely logged) when it does not. -/
def chunkSegments (name : String) (segs : List Fragment) : List Fragment :=
  match extract_time_from_filename name with
  | some off => segs.map (shiftFragment (off : ℚ))
  | none => segs

/-- Concatenation of all chunks' segments, in chunk order then fragment
order, as the reading loop of create_srt_content builds it.  The JSON file
loading is external; a chunk is its filename plus its parsed fragments. -/
def allSegments (chunks : List (String × List Fragment)) : List Fragment :=
  (chunks.map (fun p => chunkSegments p.1 p.2)).flatten

/-- main.py generate_subtitle_entry. -/
def generate_subtitle_entry (index : Nat) (st en : ℚ) (text : String) : String :=
  ⟨natDigits index ++ '\n' :: (convert_to_srt_time st).data
    ++ ' ' :: '-' :: '-' :: '>' :: ' ' :: (convert_to_srt_time en).data
    ++ '\n' :: text.data ++ '\n' :: ['\n']⟩

/-- main.py create_srt_content: ''.join of the generated entries over the
concatenated offset-shifted segments. -/
def create_srt_content (chunks : List (String × List Fragment)) : String :=
  ⟨((coalesce (allSegments chunks)).map
      (fun e => (generate_subtitle_entry e.index e.start e.stop e.text).data)).flatten⟩

/-! Spec-side definitions, written from the claims' words, to be compared
with the source-side definitions above. -/

/-- Spec side (claim C2): the maximal runs of consecutive fragments with
equal text, each run given as its first fragment plus the rest of the run. -/
def specRuns : List Fragment → List (Fragment × List Fragment)
  | [] => []
  | f :: fs =>
    match specRuns fs with
    | [] => [(f, [])]
    | (g, r) :: rest =>
      if f.text = g.text then (f, g :: r) :: rest else (f, []) :: (g, r) :: rest

/-- End time of a run: the end of its last fragment. -/
def runStop (f : Fragment) (r : List Fragment) : ℚ := (r.getLastD f).stop

/-- Spec side (claim C2): one cue per run; the cue at 1-based position i
has index i, the start of the run's first fragment, the end of its last,
and the run's text. -/
def cuesFrom (i : Nat) : List (Fragment × List Fragment) → List Entry
  | [] => []
  | (g, r) :: rest => ⟨i, g.start, runStop g r, g.text⟩ :: cuesFrom (i + 1) rest

/-- Spec side (claim C2): the cue sequence the claim predicts. -/
def specCues (frags : List Fragment) : List Entry := cuesFrom 1 (specRuns frags)

/-- Claim C6's pattern, as stated: exactly two-digit hour, minute and
second groups and a three-digit millisecond group. -/
def claimTsShape (s : String) : Bool :=
  match s.data with
  | [h1, h2, ':', m1, m2, ':', s1, s2, ',', f1, f2, f3] =>
    h1.isDigit && h2.isDigit && m1.isDigit && m2.isDigit && s1.isDigit && s2.isDigit
      && f1.isDigit && f2.isDigit && f3.isDigit
  | _ => false

/-- The true acceptance pattern of strptime '%H:%M:%S,%f' (amended C6):
one-or-two digit hour, minute and second fields whose values are at most
23, 59 and 59, and a one-to-six digit fraction field. -/
def GoodTs (s : String) : Prop :=
  ∃ hs ms ss fs : List Char,
    s.data = hs ++ ':' :: (ms ++ ':' :: (ss ++ ',' :: fs)) ∧
    (∀ c ∈ hs, c.isDigit = true) ∧ (∀ c ∈ ms, c.isDigit = true) ∧
    (∀ c ∈ ss, c.isDigit = true) ∧ (∀ c ∈ fs, c.isDigit = true) ∧
    1 ≤ hs.length ∧ hs.length ≤ 2 ∧ 1 ≤ ms.length ∧ ms.length ≤ 2 ∧
    1 ≤ ss.length ∧ ss.length ≤ 2 ∧ 1 ≤ fs.length ∧ fs.length ≤ 6 ∧
    natOfDigits hs ≤ 23 ∧ natOfDigits ms ≤ 59 ∧ natOfDigits ss ≤ 59

/-- Claim C9's pattern: the identifier ends in the six-digit group ds, an
underscore, another six-digit group and the suffix ".json". -/
def OffsetPattern (s : String) (ds : List Char) : Prop :=
  ∃ pre es, s.data = pre ++ ds ++ '_' :: es ++ ['.', 'j', 's', 'o', 'n'] ∧
    ds.length = 6 ∧ es.length = 6 ∧ (∀ c ∈ ds ++ es, c.isDigit = true)

/-- HHMMSS reading of a six-digit group, as claim C9 states it:
H*3600 + M*60 + S with H the leading two digits. -/
def hmsValue (ds : List Char) : Nat :=
  natOfDigits ds / 10000 * 3600 + natOfDigits ds % 10000 / 100 * 60 + natOfDigits ds % 100

/-- The same pattern followed by one final newline: the regex end anchor
also matches just before a single trailing newline, so these identifiers
are accepted by the source as well, although they do not end in ".json". -/
def OffsetPatternNl (s : String) (ds : List Char) : Prop :=
  ∃ pre es, s.data = pre ++ ds ++ '_' :: es ++ ['.', 'j', 's', 'o', 'n', '\n'] ∧
    ds.length = 6 ∧ es.length = 6 ∧ (∀ c ∈ ds ++ es, c.isDigit = true)

/-- The cue fields the merge claims compare (everything but the index). -/
def fieldsOf (c : Subtitle) : Nat × Nat × String := (c.start, c.stop, c.text)

/-- The strict overlap test read off a (start, stop, text) field triple. -/
def overlapsF (t : Nat × Nat × String) (n : Subtitle) : Bool :=
  t.1 < n.stop && n.start < t.2.1

/-- The spec's track invariant: a cue ends no later than any later cue
starts. -/
def TrackInv (l : List Subtitle) : Prop :=
  List.Pairwise (fun a b => a.stop ≤ b.start) l

/-- Every cue of the list is a non-degenerate interval. -/
def AllStrict (l : List Subtitle) : Prop := ∀ c ∈ l, c.start < c.stop

/-- No two adjacent newline characters (no occurrence of the blank-line
separator "\n\n" inside the list). -/
def noNlNl : List Char → Bool
  | c1 :: c2 :: r => !(c1 = '\n' && c2 = '\n') && noNlNl (c2 :: r)
  | _ => true

/-- The time-range line of a serialized cue:
"{start} --> {end}" with both times rendered by time_to_str. -/
def tlChars (c : Subtitle) : List Char :=
  time_to_str c.start ++ ' ' :: '-' :: '-' :: '>' :: ' ' :: time_to_str c.stop

/-- A serialized cue block without its trailing newline: index line,
time-range line, text. -/
def coreChars (c : Subtitle) : List Char :=
  c.index.data ++ '\n' :: (tlChars c ++ '\n' :: c.text.data)

/-- The block-list stage of parse_srt: filter out blank blocks and parse
each remaining one. -/
def parseParts (ps : List (List Char)) : Option (List Subtitle) :=
  optMap from_srt_block (ps.filter (fun b => !(pyStrip b).isEmpty))

/-- The cue shape that survives the SRT serialize/parse round trip: times
below 24 hours at whole-millisecond resolution, and a nonempty text that
carries no leading or trailing Python whitespace and no blank line.  (The
index needs to be a digit token; the round-trip claim pins it to the
1-based position, which is one.) -/
def WfCue (c : Subtitle) : Prop :=
  c.start < 86400000000 ∧ 1000 ∣ c.start ∧ c.stop < 86400000000 ∧ 1000 ∣ c.stop ∧
  c.text.data ≠ [] ∧
  (∀ ch, c.text.data.head? = some ch → isPyWs ch = false) ∧
  (∀ ch, c.text.data.getLast? = some ch → isPyWs ch = false) ∧
  noNlNl c.text.data = true ∧
  c.index.data ≠ [] ∧ (∀ ch ∈ c.index.data, ch.isDigit = true)

/-! Character and digit lemmas. -/

theorem digitChar_isDigit {d : Nat} (h : d < 10) : (Nat.digitChar d).isDigit = true := by
  interval_cases d <;> decide

theorem digitVal_digitChar {d : Nat} (h : d < 10) : digitVal (Nat.digitChar d) = d := by
  interval_cases d <;> decide

theorem digit_ne {c c₂ : Char} (h : c.isDigit = true) (h₂ : c₂.isDigit = false) : c ≠ c₂ := by
  intro e
  rw [e, h₂] at h
  cases h

theorem pyWs_not_digit {c : Char} (h : isPyWs c = true) : c.isDigit = false := by
  unfold isPyWs at h
  have hc : ((((c = ' ' ∨ c = '\t') ∨ c = '\n') ∨ c = '\r') ∨ c = '\x0b') ∨ c = '\x0c' := by
    simpa [Bool.or_eq_true, decide_eq_true_iff] using h
  rcases hc with ((((rfl | rfl) | rfl) | rfl) | rfl) | rfl <;> decide

theorem digit_not_pyWs {c : Char} (h : c.isDigit = true) : isPyWs c = false := by
  cases hw : isPyWs c
  · rfl
  · rw [pyWs_not_digit hw] at h
    cases h

/-! Decimal rendering lemmas. -/

theorem natDigitsAux_small {fuel d : Nat} (hf : 0 < fuel) (hd : d < 10) :
    natDigitsAux fuel d = [Nat.digitChar d] := by
  cases fuel with
  | zero => omega
  | succ n => simp [natDigitsAux, hd]

theorem natDigits_small {n : Nat} (h : n < 10) : natDigits n = [Nat.digitChar n] :=
  natDigitsAux_small (Nat.succ_pos n) h

theorem natDigits_two {n : Nat} (h10 : 10 ≤ n) (h : n < 100) :
    natDigits n = [Nat.digitChar (n / 10), Nat.digitChar (n % 10)] := by
  unfold natDigits natDigitsAux
  rw [if_neg (by omega)]
  rw [natDigitsAux_small (by omega) (by omega)]
  rfl

theorem natDigitsAux_all_digit : ∀ fuel n : Nat, ∀ c ∈ natDigitsAux fuel n, c.isDigit = true := by
  intro fuel
  induction fuel with
  | zero => intro n c hc; simp [natDigitsAux] at hc
  | succ m ih =>
    intro n c hc
    unfold natDigitsAux at hc
    by_cases hn : n < 10
    · rw [if_pos hn] at hc
      simp at hc
      exact hc ▸ digitChar_isDigit hn
    · rw [if_neg hn] at hc
      rcases List.mem_append.mp hc with h1 | h2
      · exact ih _ c h1
      · simp at h2
        exact h2 ▸ digitChar_isDigit (Nat.mod_lt _ (by omega))

theorem natDigits_all_digit (n : Nat) : ∀ c ∈ natDigits n, c.isDigit = true :=
  natDigitsAux_all_digit (n + 1) n

theorem natDigits_ne_nil (n : Nat) : natDigits n ≠ [] := by
  by_cases h : n < 10
  · rw [natDigits_small h]; simp
  · unfold natDigits natDigitsAux
    rw [if_neg h]
    simp

theorem padZero_two {n : Nat} (h : n < 100) :
    padZero 2 n = [Nat.digitChar (n / 10), Nat.digitChar (n % 10)] := by
  by_cases h10 : n < 10
  · unfold padZero
    rw [natDigits_small h10]
    have hd : n / 10 = 0 := by omega
    have hm : n % 10 = n := by omega
    simp [hd, hm, List.replicate]
    rfl
  · unfold padZero
    rw [natDigits_two (by omega) h]
    simp

theorem padZero_three {n : Nat} (h : n < 1000) :
    padZero 3 n = [Nat.digitChar (n / 100), Nat.digitChar (n / 10 % 10), Nat.digitChar (n % 10)] := by
  by_cases h10 : n < 10
  · unfold padZero
    rw [natDigits_small h10]
    have h1 : n / 100 = 0 := by omega
    have h2 : n / 10 % 10 = 0 := by omega
    have h3 : n % 10 = n := by omega
    rw [h1, h2, h3]
    rfl
  · by_cases h100 : n < 100
    · unfold padZero
      rw [natDigits_two (by omega) h100]
      have h1 : n / 100 = 0 := by omega
      have h2 : n / 10 % 10 = n / 10 := by omega
      rw [h1, h2]
      rfl
    · unfold padZero natDigits natDigitsAux
      rw [if_neg (by omega)]
      have hfuel : 0 < n := by omega
      rw [(by omega : n = (n - 1) + 1)]
      unfold natDigitsAux
      rw [if_neg (by omega)]
      have : (n - 1 + 1) / 10 / 10 < 10 := by omega
      rw [natDigitsAux_small (by omega) (by omega)]
      have e1 : n - 1 + 1 = n := by omega
      rw [e1]
      have e2 : n / 10 / 10 = n / 100 := by omega
      rw [e2]
      simp

theorem natOfDigits_two {n : Nat} (h : n < 100) :
    natOfDigits [Nat.digitChar (n / 10), Nat.digitChar (n % 10)] = n := by
  unfold natOfDigits
  simp [List.foldl, digitVal_digitChar (by omega : n / 10 < 10),
    digitVal_digitChar (by omega : n % 10 < 10)]
  omega

theorem natOfDigits_three {n : Nat} (h : n < 1000) :
    natOfDigits [Nat.digitChar (n / 100), Nat.digitChar (n / 10 % 10), Nat.digitChar (n % 10)] = n := by
  unfold natOfDigits
  simp [List.foldl, digitVal_digitChar (by omega : n / 100 < 10),
    digitVal_digitChar (by omega : n / 10 % 10 < 10),
    digitVal_digitChar (by omega : n % 10 < 10)]
  omega

/-! takeWhile and dropWhile over a digit run followed by a separator. -/

theorem takeWhile_digit_run {ds r : List Char} (hd : ∀ c ∈ ds, c.isDigit = true)
    (hr : ∀ c, r.head? = some c → c.isDigit = false) :
    (ds ++ r).takeWhile Char.isDigit = ds := by
  induction ds with
  | nil =>
    cases r with
    | nil => rfl
    | cons c rest => simp [List.takeWhile, hr c rfl]
  | cons d ds ih =>
    have hdd : d.isDigit = true := hd d (by simp)
    simp [hdd, ih (fun c hc => hd c (by simp [hc]))]

theorem dropWhile_digit_run {ds r : List Char} (hd : ∀ c ∈ ds, c.isDigit = true)
    (hr : ∀ c, r.head? = some c → c.isDigit = false) :
    (ds ++ r).dropWhile Char.isDigit = r := by
  induction ds with
  | nil =>
    cases r with
    | nil => rfl
    | cons c rest => simp [List.dropWhile, hr c rfl]
  | cons d ds ih =>
    have hdd : d.isDigit = true := hd d (by simp)
    simp [hdd, ih (fun c hc => hd c (by simp [hc]))]

theorem head_cons_not_digit (c0 : Char) (h0 : c0.isDigit = false) (r : List Char) :
    ∀ c, (c0 :: r).head? = some c → c.isDigit = false := by
  intro c hc
  simp only [List.head?_cons, Option.some.injEq] at hc
  rw [← hc]
  exact h0

theorem no_head_not_digit : ∀ c : Char, ([] : List Char).head? = some c → c.isDigit = false := by
  intro c hc
  simp at hc

theorem takeWhile_all_digits {ds : List Char} (hd : ∀ c ∈ ds, c.isDigit = true) :
    ds.takeWhile Char.isDigit = ds := by
  have h := takeWhile_digit_run hd no_head_not_digit
  simpa using h

theorem dropWhile_all_digits {ds : List Char} (hd : ∀ c ∈ ds, c.isDigit = true) :
    ds.dropWhile Char.isDigit = [] := by
  have h := dropWhile_digit_run hd no_head_not_digit
  simpa using h

/-! Acceptance of strptime on a decomposed well-formed timestamp. -/

theorem strptimeChars_of_parts {hsl msl ssl fsl : List Char}
    (hhd : ∀ c ∈ hsl, c.isDigit = true) (hmd : ∀ c ∈ msl, c.isDigit = true)
    (hsd : ∀ c ∈ ssl, c.isDigit = true) (hfd : ∀ c ∈ fsl, c.isDigit = true)
    (hl1 : 1 ≤ hsl.length) (hl2 : hsl.length ≤ 2)
    (ml1 : 1 ≤ msl.length) (ml2 : msl.length ≤ 2)
    (sl1 : 1 ≤ ssl.length) (sl2 : ssl.length ≤ 2)
    (fl1 : 1 ≤ fsl.length) (fl2 : fsl.length ≤ 6)
    (hvh : natOfDigits hsl ≤ 23) (hvm : natOfDigits msl ≤ 59) (hvs : natOfDigits ssl ≤ 59) :
    strptimeChars (hsl ++ ':' :: (msl ++ ':' :: (ssl ++ ',' :: fsl))) =
      some (((natOfDigits hsl * 60 + natOfDigits msl) * 60 + natOfDigits ssl) * 1000000
            + natOfDigits fsl * 10 ^ (6 - fsl.length)) := by
  have t1 := takeWhile_digit_run hhd
    (head_cons_not_digit ':' (by decide) (msl ++ ':' :: (ssl ++ ',' :: fsl)))
  have d1 := dropWhile_digit_run hhd
    (head_cons_not_digit ':' (by decide) (msl ++ ':' :: (ssl ++ ',' :: fsl)))
  have t2 := takeWhile_digit_run hmd (head_cons_not_digit ':' (by decide) (ssl ++ ',' :: fsl))
  have d2 := dropWhile_digit_run hmd (head_cons_not_digit ':' (by decide) (ssl ++ ',' :: fsl))
  have t3 := takeWhile_digit_run hsd (head_cons_not_digit ',' (by decide) fsl)
  have d3 := dropWhile_digit_run hsd (head_cons_not_digit ',' (by decide) fsl)
  have t4 := takeWhile_all_digits hfd
  have d4 := dropWhile_all_digits hfd
  have e1 : (decide (hsl.length = 0) || decide (2 < hsl.length)
      || decide (23 < natOfDigits hsl)) = false := by
    simp only [Bool.or_eq_false_iff, decide_eq_false_iff_not]
    refine ⟨⟨?_, ?_⟩, ?_⟩ <;> omega
  have e2 : (decide (msl.length = 0) || decide (2 < msl.length)
      || decide (59 < natOfDigits msl)) = false := by
    simp only [Bool.or_eq_false_iff, decide_eq_false_iff_not]
    refine ⟨⟨?_, ?_⟩, ?_⟩ <;> omega
  have e3 : (decide (ssl.length = 0) || decide (2 < ssl.length)
      || decide (59 < natOfDigits ssl)) = false := by
    simp only [Bool.or_eq_false_iff, decide_eq_false_iff_not]
    refine ⟨⟨?_, ?_⟩, ?_⟩ <;> omega
  have e4a : decide (fsl.length = 0) = false := by
    simp only [decide_eq_false_iff_not]
    omega
  have e4b : decide (6 < fsl.length) = false := by
    simp only [decide_eq_false_iff_not]
    omega
  simp only [strptimeChars, t1, d1, e1, Bool.false_eq_true, if_false]
  simp only [t2, d2, e2, Bool.false_eq_true, if_false, if_pos rfl]
  simp only [t3, d3, e3, Bool.false_eq_true, if_false, if_pos rfl]
  simp only [t4, d4, e4a, e4b, Bool.false_eq_true, if_false, if_pos rfl]
  simp

/-- Inversion: a successful strptime parse decomposes its input into four
digit fields with their separators, length and value bounds, and fixes the
resulting microsecond value. -/
theorem strptimeChars_some_inv {cs : List Char} {t : Nat} (h : strptimeChars cs = some t) :
    ∃ hsl msl ssl fsl : List Char,
      cs = hsl ++ ':' :: (msl ++ ':' :: (ssl ++ ',' :: fsl)) ∧
      (∀ c ∈ hsl, c.isDigit = true) ∧ (∀ c ∈ msl, c.isDigit = true) ∧
      (∀ c ∈ ssl, c.isDigit = true) ∧ (∀ c ∈ fsl, c.isDigit = true) ∧
      1 ≤ hsl.length ∧ hsl.length ≤ 2 ∧ 1 ≤ msl.length ∧ msl.length ≤ 2 ∧
      1 ≤ ssl.length ∧ ssl.length ≤ 2 ∧ 1 ≤ fsl.length ∧ fsl.length ≤ 6 ∧
      natOfDigits hsl ≤ 23 ∧ natOfDigits msl ≤ 59 ∧ natOfDigits ssl ≤ 59 ∧
      t = ((natOfDigits hsl * 60 + natOfDigits msl) * 60 + natOfDigits ssl) * 1000000
          + natOfDigits fsl * 10 ^ (6 - fsl.length) := by
  simp only [strptimeChars] at h
  split at h
  · exact absurd h (by simp)
  next hcond1 =>
  split at h
  · exact absurd h (by simp)
  next x1 c1 r2 heq1 =>
  split at h
  swap
  · exact absurd h (by simp)
  next hc1 =>
  subst hc1
  split at h
  · exact absurd h (by simp)
  next hcond2 =>
  split at h
  · exact absurd h (by simp)
  next x2 c2 r4 heq2 =>
  split at h
  swap
  · exact absurd h (by simp)
  next hc2 =>
  subst hc2
  split at h
  · exact absurd h (by simp)
  next hcond3 =>
  split at h
  · exact absurd h (by simp)
  next x3 c3 r6 heq3 =>
  split at h
  swap
  · exact absurd h (by simp)
  next hc3 =>
  subst hc3
  split at h
  · exact absurd h (by simp)
  next hcond4 =>
  simp only [Bool.or_eq_true, decide_eq_true_iff] at hcond1 hcond2 hcond3 hcond4
  push_neg at hcond1 hcond2 hcond3 hcond4
  obtain ⟨⟨q1a, q1b⟩, q1c⟩ := hcond1
  obtain ⟨⟨q2a, q2b⟩, q2c⟩ := hcond2
  obtain ⟨⟨q3a, q3b⟩, q3c⟩ := hcond3
  obtain ⟨⟨q4a, q4b⟩, q4c⟩ := hcond4
  have hdw4 : List.dropWhile Char.isDigit r6 = [] := q4c
  have ecs : cs = cs.takeWhile Char.isDigit ++ ':' :: r2 := by
    rw [← heq1]
    exact (List.takeWhile_append_dropWhile Char.isDigit cs).symm
  have er2 : r2 = r2.takeWhile Char.isDigit ++ ':' :: r4 := by
    rw [← heq2]
    exact (List.takeWhile_append_dropWhile Char.isDigit r2).symm
  have er4 : r4 = r4.takeWhile Char.isDigit ++ ',' :: r6 := by
    rw [← heq3]
    exact (List.takeWhile_append_dropWhile Char.isDigit r4).symm
  have er6 : r6 = r6.takeWhile Char.isDigit := by
    have e := List.takeWhile_append_dropWhile Char.isDigit r6
    rw [hdw4, List.append_nil] at e
    exact e.symm
  refine ⟨cs.takeWhile Char.isDigit, r2.takeWhile Char.isDigit, r4.takeWhile Char.isDigit,
    r6.takeWhile Char.isDigit, ?_, ?_, ?_, ?_, ?_, by omega, q1b, by omega, q2b, by omega,
    q3b, by omega, q4b, q1c, q2c, q3c, ?_⟩
  · conv_lhs => rw [ecs, er2, er4, er6]
  · intro c hc
    exact List.mem_takeWhile_imp hc
  · intro c hc
    exact List.mem_takeWhile_imp hc
  · intro c hc
    exact List.mem_takeWhile_imp hc
  · intro c hc
    exact List.mem_takeWhile_imp hc
  · exact (Option.some.injEq _ _ ▸ h).symm

/-! The formatted two- and three-digit groups are digit runs. -/

theorem two_digit_chars {n : Nat} (h : n < 100) :
    ∀ c ∈ [Nat.digitChar (n / 10), Nat.digitChar (n % 10)], c.isDigit = true := by
  intro c hc
  simp only [List.mem_cons, List.mem_singleton, List.not_mem_nil, or_false] at hc
  rcases hc with rfl | rfl
  · exact digitChar_isDigit (by omega)
  · exact digitChar_isDigit (by omega)

theorem three_digit_chars {n : Nat} (h : n < 1000) :
    ∀ c ∈ [Nat.digitChar (n / 100), Nat.digitChar (n / 10 % 10), Nat.digitChar (n % 10)],
      c.isDigit = true := by
  intro c hc
  simp only [List.mem_cons, List.mem_singleton, List.not_mem_nil, or_false] at hc
  rcases hc with rfl | rfl | rfl
  · exact digitChar_isDigit (by omega)
  · exact digitChar_isDigit (by omega)
  · exact digitChar_isDigit (by omega)

/-- strptime reads back exactly what the "{:02}:{:02}:{:02},{:03}" format
wrote, for in-range components. -/
theorem strptime_timeChars {h m s ms : Nat} (hh : h ≤ 23) (hm : m ≤ 59) (hs : s ≤ 59)
    (hms : ms ≤ 999) :
    strptimeChars (timeChars h m s ms) =
      some (((h * 60 + m) * 60 + s) * 1000000 + ms * 1000) := by
  unfold timeChars
  rw [padZero_two (by omega), padZero_two (by omega), padZero_two (by omega),
    padZero_three (by omega)]
  rw [strptimeChars_of_parts (two_digit_chars (by omega)) (two_digit_chars (by omega))
    (two_digit_chars (by omega)) (three_digit_chars (by omega))
    (by simp) (by simp) (by simp) (by simp) (by simp) (by simp) (by simp) (by simp)
    (by rw [natOfDigits_two (by omega : h < 100)]; omega)
    (by rw [natOfDigits_two (by omega : m < 100)]; omega)
    (by rw [natOfDigits_two (by omega : s < 100)]; omega)]
  rw [natOfDigits_two (by omega : h < 100), natOfDigits_two (by omega : m < 100),
    natOfDigits_two (by omega : s < 100), natOfDigits_three (by omega : ms < 1000)]
  norm_num

/-- Parsing the serialized form of a time value recovers it truncated to
whole milliseconds. -/
theorem strptime_time_to_str {t : Nat} (hlt : t < 86400000000) :
    strptimeTime ⟨time_to_str t⟩ = some (t / 1000 * 1000) := by
  show strptimeChars (time_to_str t) = some (t / 1000 * 1000)
  unfold time_to_str
  rw [strptime_timeChars (by omega) (by omega) (by omega) (by omega)]
  simp only [Option.some.injEq]
  omega

/-- Under 24 hours the timedelta-based encoder agrees with the
time-of-day serializer applied to the rounded microsecond total. -/
theorem convert_eq_time_to_str {x : ℚ} (hb : usOfSeconds x < 86400000000) :
    convert_to_srt_time x = ⟨time_to_str (usOfSeconds x)⟩ := by
  simp only [convert_to_srt_time, time_to_str]
  have e1 : usOfSeconds x / 1000000 % 86400 / 3600 + usOfSeconds x / 86400000000 * 24
      = usOfSeconds x / 3600000000 := by omega
  have e2 : usOfSeconds x / 1000000 % 86400 % 3600 / 60
      = usOfSeconds x % 3600000000 / 60000000 := by omega
  have e3 : usOfSeconds x / 1000000 % 86400 % 60 = usOfSeconds x % 60000000 / 1000000 := by
    omega
  rw [e1, e2, e3]

/-! Rounding lemmas for the timedelta conversion. -/

theorem roundHalfEven_nonneg {q : ℚ} (h : 0 ≤ q) : 0 ≤ roundHalfEven q := by
  unfold roundHalfEven
  have hf : (0 : ℤ) ≤ ⌊q⌋ := Int.floor_nonneg.mpr h
  split_ifs <;> omega

theorem roundHalfEven_close (q : ℚ) : |(roundHalfEven q : ℚ) - q| ≤ 1 / 2 := by
  unfold roundHalfEven
  have h0 : 0 ≤ q - (⌊q⌋ : ℚ) := by
    have := Int.floor_le q
    linarith
  have h1 : q - (⌊q⌋ : ℚ) < 1 := by
    have := Int.lt_floor_add_one q
    linarith
  split_ifs with hc1 hc2 hc3
  · rw [abs_sub_comm, abs_of_nonneg h0]
    linarith
  · push_cast
    rw [abs_of_nonneg (by linarith)]
    linarith
  · rw [abs_sub_comm, abs_of_nonneg h0]
    linarith
  · push_cast
    rw [abs_of_nonneg (by linarith)]
    linarith

theorem roundHalfEven_natCast (m : Nat) : roundHalfEven ((m : ℚ)) = m := by
  unfold roundHalfEven
  rw [Int.floor_natCast]
  rw [if_pos (by push_cast; norm_num)]

theorem usOfSeconds_int {x : ℚ} (hx : 0 ≤ x) :
    ((usOfSeconds x : ℕ) : ℤ) = roundHalfEven (x * 1000000) :=
  Int.toNat_of_nonneg (roundHalfEven_nonneg (mul_nonneg hx (by norm_num)))

theorem usOfSeconds_natCast (m : Nat) : usOfSeconds ((m : ℚ)) = m * 1000000 := by
  unfold usOfSeconds
  have e : (m : ℚ) * 1000000 = ((m * 1000000 : ℕ) : ℚ) := by push_cast; ring
  rw [e, roundHalfEven_natCast]
  rfl

/-- C3 (amended): for every non-negative seconds value x whose whole-microsecond
rounding stays below 24 hours, decoding the encoded timestamp succeeds and
reproduces x to within one millisecond.  (The hour field of the encoder is
unbounded, but the decoder rejects hours above 23, so the bound is needed:
see the counterexample at x = 86400.) -/
theorem time_codec_roundtrip (x : ℚ) (hx : 0 ≤ x) (hb : usOfSeconds x < 86400000000) :
    ∃ t : Nat, strptimeTime (convert_to_srt_time x) = some t ∧
      |(t : ℚ) / 1000000 - x| < 1 / 1000 := by
  refine ⟨usOfSeconds x / 1000 * 1000, ?_, ?_⟩
  · rw [convert_eq_time_to_str hb]
    exact strptime_time_to_str hb
  · have hle : usOfSeconds x / 1000 * 1000 ≤ usOfSeconds x := Nat.div_mul_le_self _ 1000
    have hdiff : usOfSeconds x - usOfSeconds x / 1000 * 1000 ≤ 999 := by omega
    have h1 : |((usOfSeconds x : ℤ) : ℚ) - x * 1000000| ≤ 1 / 2 := by
      rw [usOfSeconds_int hx]
      exact roundHalfEven_close _
    have h1q : |((usOfSeconds x : ℕ) : ℚ) - x * 1000000| ≤ 1 / 2 := by
      push_cast at h1 ⊢
      exact h1
    have h2 : |((usOfSeconds x / 1000 * 1000 : ℕ) : ℚ) - ((usOfSeconds x : ℕ) : ℚ)| ≤ 999 := by
      rw [abs_sub_comm, abs_of_nonneg (sub_nonneg.mpr (Nat.cast_le.mpr hle))]
      rw [← Nat.cast_sub hle]
      exact_mod_cast hdiff
    have h3 : ((usOfSeconds x / 1000 * 1000 : ℕ) : ℚ) / 1000000 - x
        = (((usOfSeconds x / 1000 * 1000 : ℕ) : ℚ) - x * 1000000) / 1000000 := by
      ring
    rw [h3, abs_div, abs_of_pos (by norm_num : (0 : ℚ) < 1000000), div_lt_iff₀ (by norm_num)]
    calc |((usOfSeconds x / 1000 * 1000 : ℕ) : ℚ) - x * 1000000|
        ≤ |((usOfSeconds x / 1000 * 1000 : ℕ) : ℚ) - ((usOfSeconds x : ℕ) : ℚ)|
          + |((usOfSeconds x : ℕ) : ℚ) - x * 1000000| := abs_sub_le _ _ _
      _ ≤ 999 + 1 / 2 := add_le_add h2 h1q
      _ < 1 / 1000 * 1000000 := by norm_num

/-- Witness for the amended C3 round trip at the concrete input x = 2 s. -/
theorem time_codec_roundtrip_wit :
    ∃ t : Nat, strptimeTime (convert_to_srt_time ((2 : ℕ) : ℚ)) = some t ∧
      |(t : ℚ) / 1000000 - ((2 : ℕ) : ℚ)| < 1 / 1000 :=
  time_codec_roundtrip _ (Nat.cast_nonneg 2) (by rw [usOfSeconds_natCast]; decide)

/-- Counterexample to C3 as stated: at x = 86400 s (exactly 24 hours, a
non-negative input) the encoder emits "24:00:00,000" but the decoder rejects
any hour field above 23, so decode(encode(x)) fails instead of reproducing x. -/
theorem time_codec_day_cex :
    0 ≤ ((86400 : ℕ) : ℚ) ∧ strptimeTime (convert_to_srt_time ((86400 : ℕ) : ℚ)) = none := by
  refine ⟨Nat.cast_nonneg _, ?_⟩
  have hu : usOfSeconds ((86400 : ℕ) : ℚ) = 86400 * 1000000 := usOfSeconds_natCast 86400
  show strptimeChars (convert_to_srt_time ((86400 : ℕ) : ℚ)).data = none
  simp only [convert_to_srt_time, hu]
  decide

/-- C6 (amended): decoding a timestamp fails exactly when the string is not
of the shape hour ":" minute ":" second "," fraction with one-or-two digit
hour, minute and second fields of values at most 23, 59 and 59, and a
one-to-six digit fraction field.  (The stated exact 2+2+2+3-digit shape is
refuted by the counterexample "0:0:0,1".) -/
theorem strptime_failure_iff (s : String) : strptimeTime s = none ↔ ¬ GoodTs s := by
  constructor
  · intro hnone hgood
    obtain ⟨hs, ms, ss, fs, hdec, d1, d2, d3, d4, l1, l2, l3, l4, l5, l6, l7, l8, v1, v2, v3⟩ :=
      hgood
    have hp := strptimeChars_of_parts d1 d2 d3 d4 l1 l2 l3 l4 l5 l6 l7 l8 v1 v2 v3
    unfold strptimeTime at hnone
    rw [hdec, hp] at hnone
    cases hnone
  · intro hng
    cases hv : strptimeTime s with
    | none => rfl
    | some t =>
      exfalso
      apply hng
      obtain ⟨hs, ms, ss, fs, hdec, d1, d2, d3, d4, l1, l2, l3, l4, l5, l6, l7, l8, v1, v2,
        v3, _⟩ := strptimeChars_some_inv hv
      exact ⟨hs, ms, ss, fs, hdec, d1, d2, d3, d4, l1, l2, l3, l4, l5, l6, l7, l8, v1, v2, v3⟩

/-- Counterexample to C6 as stated: the string "0:0:0,1" does not match the
exact two-digit/two-digit/two-digit/three-digit pattern, yet the decoder
accepts it (strptime field widths are flexible), refuting the stated
fails-iff-not-exact-shape equivalence at this input. -/
theorem strptime_shape_cex :
    ¬ (strptimeTime "0:0:0,1" = none ↔ claimTsShape "0:0:0,1" = false) := by
  decide

/-! Coalescer: the loop computes one cue per maximal run. -/

theorem runStop_cons (f g : Fragment) (r : List Fragment) :
    runStop f (g :: r) = runStop g r := by
  unfold runStop
  rw [List.getLastD_cons]

theorem runStop_nil (f : Fragment) : runStop f [] = f.stop := rfl

theorem coalesceLoop_some (segs : List Fragment) :
    ∀ (i : Nat) (t : String) (st en : ℚ),
      coalesceLoop segs i (some (t, st, en)) =
        match specRuns segs with
        | [] => [⟨i, st, en, t⟩]
        | (g, r) :: rest =>
          if t = g.text then
            ⟨i, st, runStop g r, t⟩ :: cuesFrom (i + 1) rest
          else
            ⟨i, st, en, t⟩ :: cuesFrom (i + 1) ((g, r) :: rest) := by
  induction segs with
  | nil =>
    intro i t st en
    rfl
  | cons f fs ih =>
    intro i t st en
    simp only [specRuns]
    by_cases ht : t = f.text
    · have e1 : coalesceLoop (f :: fs) i (some (t, st, en))
          = coalesceLoop fs i (some (t, st, f.stop)) := by
        simp [coalesceLoop, ht]
      rw [e1, ih]
      cases hsr : specRuns fs with
      | nil =>
        simp only [ht, if_pos rfl]
        rfl
      | cons p rest =>
        obtain ⟨g, r⟩ := p
        by_cases htg : f.text = g.text
        · simp [ht, htg, runStop_cons, cuesFrom]
        · simp [ht, htg, runStop_nil, cuesFrom]
    · have e2 : coalesceLoop (f :: fs) i (some (t, st, en))
          = ⟨i, st, en, t⟩ :: coalesceLoop fs (i + 1) (some (f.text, f.start, f.stop)) := by
        simp [coalesceLoop, ht]
      rw [e2, ih]
      cases hsr : specRuns fs with
      | nil =>
        simp [ht, runStop_nil, cuesFrom]
      | cons p rest =>
        obtain ⟨g, r⟩ := p
        by_cases htg : f.text = g.text
        · have htg2 : ¬t = g.text := by
            rw [← htg]
            exact ht
          simp [ht, htg, htg2, runStop_cons, runStop_nil, cuesFrom]
        · simp [ht, htg, runStop_nil, cuesFrom]

theorem coalesce_eq_specCues (segs : List Fragment) : coalesce segs = specCues segs := by
  cases segs with
  | nil => rfl
  | cons f fs =>
    show coalesceLoop fs 1 (some (f.text, f.start, f.stop)) = specCues (f :: fs)
    rw [coalesceLoop_some]
    unfold specCues
    simp only [specRuns]
    cases hsr : specRuns fs with
    | nil => simp [cuesFrom, runStop_nil]
    | cons p rest =>
      obtain ⟨g, r⟩ := p
      by_cases htg : f.text = g.text
      · simp [htg, cuesFrom, runStop_cons]
      · simp [htg, cuesFrom, runStop_nil]

/-- C2: the Fragment Coalescer emits exactly one cue per maximal run of
consecutive equal-text fragments (start from the run's first fragment, end
from its last, the run's text, 1-based sequential indices); an empty
fragment sequence yields no cues; and on the spec's concrete example
[(0,1,"hi"), (1,2,"hi"), (2,3,"bye")] it emits exactly
(1, 0, 2, "hi") and (2, 2, 3, "bye"). -/
theorem coalescer_runs :
    (∀ segs : List Fragment, coalesce segs = specCues segs) ∧
    coalesce [] = [] ∧
    coalesce [⟨0, 1, "hi"⟩, ⟨1, 2, "hi"⟩, ⟨2, 3, "bye"⟩]
      = [⟨1, 0, 2, "hi"⟩, ⟨2, 2, 3, "bye"⟩] :=
  ⟨coalesce_eq_specCues, rfl, by decide⟩

/-! Cue well-formedness of the coalescer output. -/

theorem specRuns_run_sublist (l : List Fragment) :
    ∀ p ∈ specRuns l, (p.1 :: p.2).Sublist l := by
  induction l with
  | nil =>
    intro p hp
    simp [specRuns] at hp
  | cons f fs ih =>
    intro p hp
    simp only [specRuns] at hp
    cases hsr : specRuns fs with
    | nil =>
      rw [hsr] at hp
      simp at hp
      subst hp
      exact (List.nil_sublist fs).cons₂ f
    | cons q rest =>
      obtain ⟨g, r⟩ := q
      rw [hsr] at hp
      dsimp only at hp
      by_cases htg : f.text = g.text
      · rw [if_pos htg] at hp
        rcases List.mem_cons.mp hp with rfl | hmem
        · have hgr : ((g, r).1 :: (g, r).2).Sublist fs := ih (g, r) (by rw [hsr]; simp)
          exact hgr.cons₂ f
        · exact ((ih p (by rw [hsr]; simp [hmem]))).cons f
      · rw [if_neg htg] at hp
        rcases List.mem_cons.mp hp with rfl | hmem
        · exact (List.nil_sublist fs).cons₂ f
        · exact ((ih p (by rw [hsr]; exact hmem))).cons f

theorem getLastD_mem (g : Fragment) (r : List Fragment) : r.getLastD g ∈ g :: r := by
  induction r generalizing g with
  | nil => simp
  | cons x xs ih =>
    rw [List.getLastD_cons]
    exact List.mem_cons_of_mem g (ih x)

theorem cuesFrom_mem {c : Entry} :
    ∀ (i : Nat) (runs : List (Fragment × List Fragment)), c ∈ cuesFrom i runs →
      ∃ g r, (g, r) ∈ runs ∧ c.start = g.start ∧ c.stop = runStop g r := by
  intro i runs
  induction runs generalizing i with
  | nil => intro hc; simp [cuesFrom] at hc
  | cons p rest ih =>
    obtain ⟨g, r⟩ := p
    intro hc
    rcases List.mem_cons.mp hc with rfl | hmem
    · exact ⟨g, r, by simp, rfl, rfl⟩
    · obtain ⟨g2, r2, hm, h1, h2⟩ := ih (i + 1) hmem
      exact ⟨g2, r2, by simp [hm], h1, h2⟩

/-- C5 (amended): when the input fragments are well-formed (each has
start at most end) and chronologically ordered by start, every cue emitted
by the coalescer satisfies start at most end.  (Stated over all fragment
sequences the claim is refuted: a single reversed fragment yields a
reversed cue.) -/
theorem coalescer_cue_wf (segs : List Fragment)
    (hwf : ∀ f ∈ segs, f.start ≤ f.stop)
    (hord : List.Pairwise (fun a b : Fragment => a.start ≤ b.start) segs) :
    ∀ c ∈ coalesce segs, c.start ≤ c.stop := by
  rw [coalesce_eq_specCues]
  intro c hc
  obtain ⟨g, r, hrun, hs, he⟩ := cuesFrom_mem 1 (specRuns segs) hc
  have hsub : (g :: r).Sublist segs := specRuns_run_sublist segs (g, r) hrun
  have hlast : r.getLastD g ∈ g :: r := getLastD_mem g r
  have hmem : r.getLastD g ∈ segs := hsub.subset hlast
  rw [hs, he]
  show g.start ≤ (r.getLastD g).stop
  rcases List.mem_cons.mp hlast with he2 | hr
  · rw [he2]
    exact hwf g (hsub.subset (by simp))
  · have hp : List.Pairwise (fun a b : Fragment => a.start ≤ b.start) (g :: r) :=
      hord.sublist hsub
    have hgl : g.start ≤ (r.getLastD g).start := (List.pairwise_cons.mp hp).1 _ hr
    exact le_trans hgl (hwf _ hmem)

/-- Witness for the amended C5 at a concrete well-formed ordered input:
the single cue the coalescer emits for the fragment (0, 0, "a"). -/
theorem coalescer_cue_wf_wit :
    (⟨1, 0, 0, "a"⟩ : Entry).start ≤ (⟨1, 0, 0, "a"⟩ : Entry).stop :=
  coalescer_cue_wf [⟨0, 0, "a"⟩] (by simp) (by simp) ⟨1, 0, 0, "a"⟩
    (by rw [show coalesce [(⟨0, 0, "a"⟩ : Fragment)] = [⟨1, 0, 0, "a"⟩] from rfl]; simp)

/-- Counterexample to C5 as stated: the single fragment (5, 1, "hi") has
start greater than end, and the coalescer copies those times into its cue,
so the emitted cue violates the start-at-most-end invariant. -/
theorem coalescer_cue_wf_cex :
    ¬ (∀ c ∈ coalesce [⟨5, 1, "hi"⟩], c.start ≤ c.stop) := by
  intro hall
  have hmem : (⟨1, 5, 1, "hi"⟩ : Entry) ∈ coalesce [⟨5, 1, "hi"⟩] := by
    have e : coalesce [(⟨5, 1, "hi"⟩ : Fragment)] = [⟨1, 5, 1, "hi"⟩] := rfl
    rw [e]
    simp
  have h := hall _ hmem
  have hlt : ¬((5 : ℚ) ≤ 1) := by norm_num
  exact hlt h

/-! Filename offset extraction. -/

theorem len6_decomp {l : List Char} (h : l.length = 6) :
    ∃ a b c d e f, l = [a, b, c, d, e, f] := by
  rcases l with _ | ⟨a, l⟩
  · simp at h
  rcases l with _ | ⟨b, l⟩
  · simp at h
  rcases l with _ | ⟨c, l⟩
  · simp at h
  rcases l with _ | ⟨d, l⟩
  · simp at h
  rcases l with _ | ⟨e, l⟩
  · simp at h
  rcases l with _ | ⟨f, l⟩
  · simp at h
  rcases l with _ | ⟨g, l⟩
  · exact ⟨a, b, c, d, e, f, rfl⟩
  · simp at h

theorem extractCore_of_pattern (pre : List Char) {ds es : List Char}
    (hd6 : ds.length = 6) (he6 : es.length = 6)
    (hdig : ∀ c ∈ ds ++ es, c.isDigit = true) :
    extractCore (pre ++ ds ++ '_' :: es ++ ['.', 'j', 's', 'o', 'n'])
      = some (hmsValue ds) := by
  obtain ⟨a1, a2, a3, a4, a5, a6, rfl⟩ := len6_decomp hd6
  obtain ⟨b1, b2, b3, b4, b5, b6, rfl⟩ := len6_decomp he6
  have hda : ∀ c ∈ ([a1, a2, a3, a4, a5, a6] : List Char), c.isDigit = true := by
    intro c hc
    exact hdig c (List.mem_append.mpr (Or.inl hc))
  have hdb : ∀ c ∈ ([b1, b2, b3, b4, b5, b6] : List Char), c.isDigit = true := by
    intro c hc
    exact hdig c (List.mem_append.mpr (Or.inr hc))
  have hfull : pre ++ [a1, a2, a3, a4, a5, a6] ++ '_' :: [b1, b2, b3, b4, b5, b6]
        ++ ['.', 'j', 's', 'o', 'n']
      = pre ++ [a1, a2, a3, a4, a5, a6, '_', b1, b2, b3, b4, b5, b6, '.', 'j', 's', 'o', 'n'] := by
    simp
  rw [hfull]
  unfold extractCore
  have hlen : (pre ++ [a1, a2, a3, a4, a5, a6, '_', b1, b2, b3, b4, b5, b6, '.', 'j', 's',
      'o', 'n']).length - 18 = pre.length := by
    simp
  rw [hlen, List.drop_left]
  have hcond : (a1.isDigit && a2.isDigit && a3.isDigit && a4.isDigit && a5.isDigit && a6.isDigit
      && b1.isDigit && b2.isDigit && b3.isDigit && b4.isDigit && b5.isDigit && b6.isDigit)
      = true := by
    simp [hda a1 (by simp), hda a2 (by simp), hda a3 (by simp), hda a4 (by simp),
      hda a5 (by simp), hda a6 (by simp), hdb b1 (by simp), hdb b2 (by simp),
      hdb b3 (by simp), hdb b4 (by simp), hdb b5 (by simp), hdb b6 (by simp)]
  simp only [hcond, if_true]
  rfl

theorem extractCore_some_inv {cs : List Char} {v : Nat} (h : extractCore cs = some v) :
    ∃ pre ds es, cs = pre ++ ds ++ '_' :: es ++ ['.', 'j', 's', 'o', 'n'] ∧
      ds.length = 6 ∧ es.length = 6 ∧ (∀ c ∈ ds ++ es, c.isDigit = true) ∧ v = hmsValue ds := by
  unfold extractCore at h
  split at h
  swap
  · exact absurd h (by simp)
  next a1 a2 a3 a4 a5 a6 b1 b2 b3 b4 b5 b6 heq =>
  split at h
  swap
  · exact absurd h (by simp)
  next hdig =>
  simp only [Bool.and_eq_true] at hdig
  obtain ⟨⟨⟨⟨⟨⟨⟨⟨⟨⟨⟨w1, w2⟩, w3⟩, w4⟩, w5⟩, w6⟩, w7⟩, w8⟩, w9⟩, w10⟩, w11⟩, w12⟩ := hdig
  have hv : v = hmsValue [a1, a2, a3, a4, a5, a6] := by
    simp only [Option.some.injEq] at h
    rw [← h]
    rfl
  refine ⟨cs.take (cs.length - 18), [a1, a2, a3, a4, a5, a6], [b1, b2, b3, b4, b5, b6],
    ?_, rfl, rfl, ?_, hv⟩
  · have e := List.take_append_drop (cs.length - 18) cs
    rw [heq] at e
    rw [← e]
    simp
  · intro c hc
    simp only [List.mem_append, List.mem_cons, List.mem_singleton, List.not_mem_nil,
      or_false] at hc
    rcases hc with (rfl | rfl | rfl | rfl | rfl | rfl) | (rfl | rfl | rfl | rfl | rfl | rfl)
      <;> assumption

theorem extract_some_inv {s : String} {v : Nat} (h : extract_time_from_filename s = some v) :
    ∃ ds, (OffsetPattern s ds ∨ OffsetPatternNl s ds) ∧ v = hmsValue ds := by
  unfold extract_time_from_filename at h
  split at h
  next v2 hcore =>
    obtain ⟨pre, ds, es, hdec, hd6, he6, hdig, hv⟩ := extractCore_some_inv hcore
    simp only [Option.some.injEq] at h
    exact ⟨ds, Or.inl ⟨pre, es, hdec, hd6, he6, hdig⟩, h ▸ hv⟩
  next hcore =>
    split at h
    swap
    · exact absurd h (by simp)
    next hlast =>
    obtain ⟨pre, ds, es, hdec, hd6, he6, hdig, hv⟩ := extractCore_some_inv h
    have hne : s.data ≠ [] := by
      intro e
      rw [e] at hlast
      cases hlast
    have hfull : s.data = s.data.dropLast ++ ['\n'] := by
      have e1 := List.dropLast_append_getLast hne
      have e2 : s.data.getLast hne = '\n' := by
        have e3 := List.getLast?_eq_getLast s.data hne
        rw [hlast] at e3
        exact (Option.some.injEq _ _ ▸ e3).symm
      rw [← e2]
      exact e1.symm
    refine ⟨ds, Or.inr ⟨pre, es, ?_, hd6, he6, hdig⟩, hv⟩
    rw [hfull, hdec]
    simp

/-- C9 (amended): if a chunk identifier ends in six digits, an underscore,
six digits and ".json", the extracted offset is H*3600 + M*60 + S with the
first six-digit group read as HHMMSS, and that offset is added to every
fragment's start and end of the chunk; the spec's example identifier yields
2648 seconds.  If the identifier matches neither this pattern nor the same
pattern followed by one final newline (the regex end anchor also accepts
that), no offset is extracted and the chunk's fragments pass through
unchanged. -/
theorem chunk_offset_spec :
    (∀ (s : String) (ds : List Char), OffsetPattern s ds →
      extract_time_from_filename s = some (hmsValue ds) ∧
      ∀ segs : List Fragment,
        chunkSegments s segs = segs.map (shiftFragment ((hmsValue ds : ℕ) : ℚ))) ∧
    (∀ s : String, (¬ ∃ ds, OffsetPattern s ds ∨ OffsetPatternNl s ds) →
      extract_time_from_filename s = none ∧
      ∀ segs : List Fragment, chunkSegments s segs = segs) ∧
    extract_time_from_filename "audio_004408_004410.json" = some 2648 := by
  refine ⟨?_, ?_, by decide⟩
  · intro s ds hpat
    obtain ⟨pre, es, hdec, hd6, he6, hdig⟩ := hpat
    have hcore := extractCore_of_pattern pre hd6 he6 hdig
    have hext : extract_time_from_filename s = some (hmsValue ds) := by
      unfold extract_time_from_filename
      rw [hdec, hcore]
    refine ⟨hext, ?_⟩
    intro segs
    unfold chunkSegments
    rw [hext]
  · intro s hno
    have hext : extract_time_from_filename s = none := by
      cases hv : extract_time_from_filename s with
      | none => rfl
      | some v =>
        exfalso
        obtain ⟨ds, hpat, _⟩ := extract_some_inv hv
        exact hno ⟨ds, hpat⟩
    refine ⟨hext, ?_⟩
    intro segs
    unfold chunkSegments
    rw [hext]

/-- Witness for C9 at the concrete identifier "audio_004408_004410.json". -/
theorem chunk_offset_spec_wit :
    extract_time_from_filename "audio_004408_004410.json"
        = some (hmsValue ['0', '0', '4', '4', '0', '8']) ∧
      ∀ segs : List Fragment,
        chunkSegments "audio_004408_004410.json" segs
          = segs.map (shiftFragment ((hmsValue ['0', '0', '4', '4', '0', '8'] : ℕ) : ℚ)) :=
  chunk_offset_spec.1 "audio_004408_004410.json" ['0', '0', '4', '4', '0', '8']
    ⟨"audio_".data, ['0', '0', '4', '4', '1', '0'], by decide, rfl, rfl, by decide⟩

/-- Counterexample to C9 as stated: the identifier "004408_004410.json\n"
does not end in the recognized suffix ".json" (its last character is a
newline), yet the source's regex end anchor accepts the trailing newline
and the extracted offset is 2648 seconds rather than zero. -/
theorem chunk_offset_newline_cex :
    (¬ ∃ ds, OffsetPattern "004408_004410.json\n" ds) ∧
    extract_time_from_filename "004408_004410.json\n" = some 2648 := by
  constructor
  · rintro ⟨ds, pre, es, hdec, hd6, he6, hdig⟩
    have hlast : ("004408_004410.json\n" : String).data.getLast? = some '\n' := by decide
    rw [hdec] at hlast
    simp only [List.getLast?_append] at hlast
    rw [show (['.', 'j', 's', 'o', 'n'] : List Char).getLast? = some 'n' from rfl] at hlast
    rw [show ∀ y : Option Char, (some 'n').or y = some 'n' from fun y => rfl] at hlast
    exact absurd hlast (by decide)
  · decide

/-! Sorting lemmas for the merge working set. -/

theorem insertByStart_perm (x : Subtitle) (l : List Subtitle) :
    (insertByStart x l).Perm (x :: l) := by
  induction l with
  | nil => exact List.Perm.refl _
  | cons y ys ih =>
    unfold insertByStart
    split
    · exact List.Perm.refl _
    · exact (List.Perm.cons y ih).trans (List.Perm.swap x y ys)

theorem sortByStart_perm (l : List Subtitle) : (sortByStart l).Perm l := by
  induction l with
  | nil => exact List.Perm.refl _
  | cons x xs ih => exact (insertByStart_perm x (sortByStart xs)).trans (List.Perm.cons x ih)

theorem insertByStart_sorted {l : List Subtitle} (x : Subtitle)
    (hl : List.Pairwise (fun a b => a.start ≤ b.start) l) :
    List.Pairwise (fun a b => a.start ≤ b.start) (insertByStart x l) := by
  induction l with
  | nil => simp [insertByStart]
  | cons y ys ih =>
    unfold insertByStart
    split
    next hxy =>
      constructor
      · intro b hb
        rcases List.mem_cons.mp hb with rfl | hb2
        · exact hxy
        · exact le_trans hxy ((List.pairwise_cons.mp hl).1 b hb2)
      · exact hl
    next hxy =>
      have hyx : y.start ≤ x.start := by omega
      constructor
      · intro b hb
        have hmem := (insertByStart_perm x ys).mem_iff.mp hb
        rcases List.mem_cons.mp hmem with rfl | hb2
        · exact hyx
        · exact (List.pairwise_cons.mp hl).1 b hb2
      · exact ih (List.pairwise_cons.mp hl).2

theorem sortByStart_sorted (l : List Subtitle) :
    List.Pairwise (fun a b => a.start ≤ b.start) (sortByStart l) := by
  induction l with
  | nil => simp [sortByStart]
  | cons x xs ih => exact insertByStart_sorted x ih

theorem insertByStart_all_le {l : List Subtitle} (x : Subtitle)
    (h : ∀ b ∈ l, x.start ≤ b.start) : insertByStart x l = x :: l := by
  cases l with
  | nil => rfl
  | cons y ys =>
    unfold insertByStart
    rw [if_pos (h y (by simp))]

theorem sortByStart_append_single_front (n : Subtitle) :
    ∀ post : List Subtitle, List.Pairwise (fun a b => a.start ≤ b.start) post →
      (∀ b ∈ post, n.start < b.start) → sortByStart (post ++ [n]) = n :: post := by
  intro post
  induction post with
  | nil =>
    intro _ _
    rfl
  | cons b post ih =>
    intro hs hlt
    show insertByStart b (sortByStart (post ++ [n])) = n :: b :: post
    rw [ih (List.pairwise_cons.mp hs).2 (fun c hc => hlt c (by simp [hc]))]
    unfold insertByStart
    rw [if_neg (by have := hlt b (by simp); omega)]
    rw [insertByStart_all_le b (List.pairwise_cons.mp hs).1]

theorem sortByStart_middle (n : Subtitle) :
    ∀ pre post : List Subtitle,
      List.Pairwise (fun a b => a.start ≤ b.start) (pre ++ post) →
      (∀ a ∈ pre, a.start ≤ n.start) → (∀ b ∈ post, n.start < b.start) →
      sortByStart (pre ++ (post ++ [n])) = pre ++ n :: post := by
  intro pre
  induction pre with
  | nil =>
    intro post hs hpre hpost
    simpa using sortByStart_append_single_front n post (by simpa using hs) hpost
  | cons a pre ih =>
    intro post hs hpre hpost
    show insertByStart a (sortByStart (pre ++ (post ++ [n]))) = a :: (pre ++ n :: post)
    rw [ih post (List.pairwise_cons.mp hs).2 (fun c hc => hpre c (by simp [hc])) hpost]
    apply insertByStart_all_le
    intro b hb
    rcases List.mem_append.mp hb with hb1 | hb2
    · exact (List.pairwise_cons.mp hs).1 b (List.mem_append_left _ hb1)
    · rcases List.mem_cons.mp hb2 with rfl | hb3
      · exact hpre a (by simp)
      · exact le_of_lt (lt_of_le_of_lt (hpre a (by simp)) (hpost b hb3))

/-! Re-indexing lemmas. -/

theorem reindexFrom_map_fields (l : List Subtitle) :
    ∀ i, (reindexFrom i l).map fieldsOf = l.map fieldsOf := by
  induction l with
  | nil =>
    intro i
    rfl
  | cons c cs ih =>
    intro i
    simp only [reindexFrom, List.map_cons, ih]
    rfl

theorem mem_reindexFrom {c : Subtitle} {l : List Subtitle} :
    ∀ i, c ∈ reindexFrom i l → ∃ c2 ∈ l, fieldsOf c2 = fieldsOf c := by
  induction l with
  | nil =>
    intro i hc
    simp [reindexFrom] at hc
  | cons d ds ih =>
    intro i hc
    rcases List.mem_cons.mp hc with rfl | hc2
    · exact ⟨d, by simp, rfl⟩
    · obtain ⟨c2, hm, hf⟩ := ih (i + 1) hc2
      exact ⟨c2, by simp [hm], hf⟩

theorem reindexFrom_pairwise {R : Subtitle → Subtitle → Prop}
    (hR : ∀ a b a2 b2, fieldsOf a = fieldsOf a2 → fieldsOf b = fieldsOf b2 → R a b → R a2 b2)
    {l : List Subtitle} (hl : List.Pairwise R l) :
    ∀ i, List.Pairwise R (reindexFrom i l) := by
  induction l with
  | nil =>
    intro i
    exact List.Pairwise.nil
  | cons c cs ih =>
    intro i
    rw [List.pairwise_cons] at hl
    refine List.pairwise_cons.mpr ⟨?_, ih hl.2 (i + 1)⟩
    intro b hb
    obtain ⟨b2, hm, hf⟩ := mem_reindexFrom (i + 1) hb
    exact hR c b2 _ b rfl hf (hl.1 b2 hm)

theorem reindexFrom_length (l : List Subtitle) :
    ∀ i, (reindexFrom i l).length = l.length := by
  induction l with
  | nil =>
    intro i
    rfl
  | cons c cs ih =>
    intro i
    simp [reindexFrom, ih]

theorem reindexFrom_map_index (l : List Subtitle) :
    ∀ i, (reindexFrom i l).map Subtitle.index = (List.range' i l.length).map natStr := by
  induction l with
  | nil =>
    intro i
    rfl
  | cons c cs ih =>
    intro i
    simp only [reindexFrom, List.map_cons, List.length_cons, List.range', ih]

theorem mergeStep_sorted (w : List Subtitle) (n : Subtitle) :
    List.Pairwise (fun a b => a.start ≤ b.start) (mergeStep w n) := by
  unfold mergeStep reindexAll
  refine reindexFrom_pairwise ?_ (sortByStart_sorted _) 1
  intro a b a2 b2 ha hb hab
  have e1 : a2.start = a.start := congrArg (fun t => t.1) ha.symm
  have e2 : b2.start = b.start := congrArg (fun t => t.1) hb.symm
  omega

theorem mergeStep_indices (w : List Subtitle) (n : Subtitle) :
    (mergeStep w n).map Subtitle.index
      = (List.range' 1 (mergeStep w n).length).map natStr := by
  unfold mergeStep reindexAll
  rw [reindexFrom_map_index, reindexFrom_length]

/-! Invariant preservation through one merge step. -/

theorem overlaps_false_iff {e n : Subtitle} :
    overlaps e n = false ↔ n.stop ≤ e.start ∨ e.stop ≤ n.start := by
  rw [show (overlaps e n = false) ↔ ¬(overlaps e n = true) by simp]
  unfold overlaps
  simp only [Bool.and_eq_true, decide_eq_true_iff]
  omega

theorem mergeStep_strict {w : List Subtitle} {n : Subtitle}
    (hw : ∀ c ∈ w, c.start < c.stop) (hn : n.start < n.stop) :
    ∀ c ∈ mergeStep w n, c.start < c.stop := by
  intro c hc
  unfold mergeStep reindexAll at hc
  obtain ⟨c2, hm, hf⟩ := mem_reindexFrom 1 hc
  have hm2 := (sortByStart_perm _).mem_iff.mp hm
  have e1 : c2.start = c.start := congrArg (fun t => t.1) hf
  have e2 : c2.stop = c.stop := congrArg (fun t => t.2.1) hf
  rcases List.mem_append.mp hm2 with hmf | hmn
  · have := hw c2 (List.mem_of_mem_filter hmf)
    omega
  · simp only [List.mem_singleton] at hmn
    subst hmn
    omega

theorem mergeStep_sym {w : List Subtitle} {n : Subtitle}
    (hw : List.Pairwise (fun a b => a.stop ≤ b.start ∨ b.stop ≤ a.start) w) :
    List.Pairwise (fun a b => a.stop ≤ b.start ∨ b.stop ≤ a.start) (mergeStep w n) := by
  unfold mergeStep reindexAll
  have hsym : Symmetric (fun a b : Subtitle => a.stop ≤ b.start ∨ b.stop ≤ a.start) := by
    intro a b h
    rcases h with h | h
    · exact Or.inr h
    · exact Or.inl h
  refine reindexFrom_pairwise ?_ ?_ 1
  · intro a b a2 b2 ha hb hab
    have ea1 : a2.start = a.start := congrArg (fun t => t.1) ha.symm
    have ea2 : a2.stop = a.stop := congrArg (fun t => t.2.1) ha.symm
    have eb1 : b2.start = b.start := congrArg (fun t => t.1) hb.symm
    have eb2 : b2.stop = b.stop := congrArg (fun t => t.2.1) hb.symm
    omega
  refine ((sortByStart_perm _).pairwise_iff (fun h => hsym h)).mpr ?_
  refine List.pairwise_append.mpr ⟨hw.filter _, by simp, ?_⟩
  intro a ha b hb
  simp only [List.mem_singleton] at hb
  rw [hb]
  have hfa := List.of_mem_filter ha
  have hno : overlaps a n = false := by
    simpa using hfa
  rcases overlaps_false_iff.mp hno with h | h
  · exact Or.inr h
  · exact Or.inl h

theorem trackInv_of_sorted_sym {l : List Subtitle}
    (hsort : List.Pairwise (fun a b => a.start ≤ b.start) l)
    (hsym : List.Pairwise (fun a b => a.stop ≤ b.start ∨ b.stop ≤ a.start) l)
    (hstrict : ∀ c ∈ l, c.start < c.stop) : TrackInv l := by
  unfold TrackInv
  refine (hsort.and hsym).imp_of_mem ?_
  intro a b ha hb hab
  have h1 := hab.1
  have hbs := hstrict b hb
  rcases hab.2 with h | h
  · exact h
  · omega

theorem mergeCues_strict_sym {subs2 : List Subtitle} :
    ∀ w, (∀ c ∈ w, c.start < c.stop) →
      List.Pairwise (fun a b => a.stop ≤ b.start ∨ b.stop ≤ a.start) w →
      (∀ n ∈ subs2, n.start < n.stop) →
      (∀ c ∈ mergeCues w subs2, c.start < c.stop) ∧
        List.Pairwise (fun a b => a.stop ≤ b.start ∨ b.stop ≤ a.start) (mergeCues w subs2) := by
  induction subs2 with
  | nil =>
    intro w h1 h2 _
    exact ⟨h1, h2⟩
  | cons n ns ih =>
    intro w h1 h2 hn
    exact ih (mergeStep w n) (mergeStep_strict h1 (hn n (by simp))) (mergeStep_sym h2)
      (fun m hm => hn m (by simp [hm]))

theorem mergeCues_last :
    ∀ (ns w : List Subtitle) (n : Subtitle), ∃ w2 n2, mergeCues w (n :: ns) = mergeStep w2 n2 := by
  intro ns
  induction ns with
  | nil =>
    intro w n
    exact ⟨w, n, rfl⟩
  | cons m ms ih =>
    intro w n
    obtain ⟨w2, n2, he⟩ := ih (mergeStep w n) m
    exact ⟨w2, n2, he⟩

/-- C4 (amended): when both parsed input tracks satisfy the track invariant
with every cue a non-degenerate interval (start strictly before end), and
the new track is nonempty (so the re-index loop runs at least once), the
merged cue list is non-overlapping (each cue ends no later than any later
cue starts), ordered by start, and its index fields are the contiguous
1-based sequence "1", "2", ... in that order.  (With degenerate cues or an
empty new track the claim fails: see the counterexample.) -/
theorem merge_track_invariant (s1 s2 : String) (subs1 subs2 : List Subtitle)
    (h1 : parse_srt s1 = some subs1) (h2 : parse_srt s2 = some subs2)
    (hinv1 : TrackInv subs1) (hinv2 : TrackInv subs2)
    (hstrict1 : AllStrict subs1) (hstrict2 : AllStrict subs2) (hne : subs2 ≠ []) :
    TrackInv (mergeCues subs1 subs2) ∧
      List.Pairwise (fun a b => a.start ≤ b.start) (mergeCues subs1 subs2) ∧
      (mergeCues subs1 subs2).map Subtitle.index
        = (List.range' 1 (mergeCues subs1 subs2).length).map natStr := by
  have hsym1 : List.Pairwise (fun a b => a.stop ≤ b.start ∨ b.stop ≤ a.start) subs1 :=
    hinv1.imp (fun h => Or.inl h)
  have hpair := mergeCues_strict_sym subs1 hstrict1 hsym1 hstrict2
  obtain ⟨n, ns, rfl⟩ := List.exists_cons_of_ne_nil hne
  obtain ⟨w2, n2, he⟩ := mergeCues_last ns subs1 n
  rw [he] at hpair ⊢
  exact ⟨trackInv_of_sorted_sym (mergeStep_sorted w2 n2) hpair.2 hpair.1,
    mergeStep_sorted w2 n2, mergeStep_indices w2 n2⟩

/-- Witness for the amended C4 on two concrete one-cue tracks. -/
theorem merge_track_invariant_wit :
    TrackInv (mergeCues [⟨"1", 0, 1000000, "A"⟩] [⟨"1", 2000000, 3000000, "B"⟩]) ∧
      List.Pairwise (fun a b => a.start ≤ b.start)
        (mergeCues [⟨"1", 0, 1000000, "A"⟩] [⟨"1", 2000000, 3000000, "B"⟩]) ∧
      (mergeCues [⟨"1", 0, 1000000, "A"⟩] [⟨"1", 2000000, 3000000, "B"⟩]).map Subtitle.index
        = (List.range' 1
            (mergeCues [⟨"1", 0, 1000000, "A"⟩] [⟨"1", 2000000, 3000000, "B"⟩]).length).map
              natStr :=
  merge_track_invariant "1\n00:00:00,000 --> 00:00:01,000\nA"
    "1\n00:00:02,000 --> 00:00:03,000\nB" _ _ (by decide) (by decide)
    (by unfold TrackInv; decide) (by unfold TrackInv; decide)
    (by unfold AllStrict; decide) (by unfold AllStrict; decide) (by decide)

/-- Counterexample to C4 as stated: both input tracks satisfy the track
invariant (each is a single cue), but the new track's cue is the degenerate
interval [5s, 5s], which does not strictly overlap the existing cue [5s, 10s];
after the merge the output keeps both, ordered with the existing cue first,
and cue 1 ends at 10s after cue 2 starts at 5s, violating the
non-overlap invariant. -/
theorem merge_overlap_inv_cex :
    TrackInv [(⟨"1", 5000000, 10000000, "A"⟩ : Subtitle)] ∧
    TrackInv [(⟨"1", 5000000, 5000000, "B"⟩ : Subtitle)] ∧
    parse_srt "1\n00:00:05,000 --> 00:00:10,000\nA" = some [⟨"1", 5000000, 10000000, "A"⟩] ∧
    parse_srt "1\n00:00:05,000 --> 00:00:05,000\nB" = some [⟨"1", 5000000, 5000000, "B"⟩] ∧
    ¬ TrackInv (mergeCues [⟨"1", 5000000, 10000000, "A"⟩] [⟨"1", 5000000, 5000000, "B"⟩]) := by
  refine ⟨by unfold TrackInv; decide, by unfold TrackInv; decide, by decide, by decide, ?_⟩
  intro hinv
  unfold TrackInv at hinv
  have he : mergeCues [(⟨"1", 5000000, 10000000, "A"⟩ : Subtitle)]
      [(⟨"1", 5000000, 5000000, "B"⟩ : Subtitle)]
      = [⟨"1", 5000000, 10000000, "A"⟩, ⟨"2", 5000000, 5000000, "B"⟩] := by decide
  rw [he] at hinv
  have h := (List.pairwise_cons.mp hinv).1 ⟨"2", 5000000, 5000000, "B"⟩ (by simp)
  exact absurd (h : (10000000 : Nat) ≤ 5000000) (by decide)

/-! The merged field multiset: every new cue plus every non-overlapped
existing cue. -/

theorem filter_map_fields (l : List Subtitle) (q : Subtitle → Bool)
    (qT : Nat × Nat × String → Bool) (hfac : ∀ c, q c = qT (fieldsOf c)) :
    (l.filter q).map fieldsOf = (l.map fieldsOf).filter qT := by
  induction l with
  | nil => rfl
  | cons c cs ih =>
    simp only [List.filter_cons, List.map_cons]
    rw [hfac c]
    cases h : qT (fieldsOf c) <;> simp [h, ih]

theorem filter_filter_bool (p q : Subtitle → Bool) (l : List Subtitle) :
    (l.filter p).filter q = l.filter (fun a => p a && q a) := by
  induction l with
  | nil => rfl
  | cons c cs ih =>
    simp only [List.filter_cons]
    cases hp : p c <;> cases hq : q c <;> simp [List.filter_cons, hp, hq, ih]

theorem mergeStep_map_fields_perm (w : List Subtitle) (n : Subtitle) :
    ((mergeStep w n).map fieldsOf).Perm
      ((w.filter (fun e => !overlaps e n)).map fieldsOf ++ [fieldsOf n]) := by
  unfold mergeStep reindexAll
  rw [reindexFrom_map_fields]
  have hp := (sortByStart_perm (w.filter (fun e => !overlaps e n) ++ [n])).map fieldsOf
  simpa using hp

theorem mergeCues_fields_perm :
    ∀ (ns w : List Subtitle),
      List.Pairwise (fun a b => overlaps a b = false) ns →
      ((mergeCues w ns).map fieldsOf).Perm
        (ns.map fieldsOf
          ++ (w.filter (fun e => ns.all (fun n => !overlaps e n))).map fieldsOf) := by
  intro ns
  induction ns with
  | nil =>
    intro w _
    simp only [List.map_nil, List.nil_append, List.all_nil, List.filter_true]
    exact (List.Perm.refl _).map fieldsOf
  | cons n ns ih =>
    intro w hpw
    rw [List.pairwise_cons] at hpw
    show ((mergeCues (mergeStep w n) ns).map fieldsOf).Perm _
    have h1 := ih (mergeStep w n) hpw.2
    have hfac : ∀ c : Subtitle, (ns.all (fun m => !overlaps c m))
        = (fun t => ns.all (fun m => !overlapsF t m)) (fieldsOf c) := fun c => rfl
    have hA : ((mergeStep w n).filter (fun e => ns.all (fun m => !overlaps e m))).map fieldsOf
        = ((mergeStep w n).map fieldsOf).filter (fun t => ns.all (fun m => !overlapsF t m)) :=
      filter_map_fields _ _ _ hfac
    have hB := (mergeStep_map_fields_perm w n).filter
      (fun t => ns.all (fun m => !overlapsF t m))
    have hqn : (ns.all (fun m => !overlapsF (fieldsOf n) m)) = true := by
      rw [List.all_eq_true]
      intro m hm
      have h2 := hpw.1 m hm
      show (!overlapsF (fieldsOf n) m) = true
      rw [show overlapsF (fieldsOf n) m = overlaps n m from rfl, h2]
      rfl
    have hC : (((w.filter (fun e => !overlaps e n)).map fieldsOf ++ [fieldsOf n]).filter
          (fun t => ns.all (fun m => !overlapsF t m)))
        = ((w.filter (fun e => !overlaps e n)).map fieldsOf).filter
            (fun t => ns.all (fun m => !overlapsF t m)) ++ [fieldsOf n] := by
      rw [List.filter_append]
      simp [hqn]
    have hD : ((w.filter (fun e => !overlaps e n)).map fieldsOf).filter
          (fun t => ns.all (fun m => !overlapsF t m))
        = ((w.filter (fun e => !overlaps e n)).filter
            (fun e => ns.all (fun m => !overlaps e m))).map fieldsOf :=
      (filter_map_fields _ _ _ hfac).symm
    have hE : ((w.filter (fun e => !overlaps e n)).filter
          (fun e => ns.all (fun m => !overlaps e m)))
        = w.filter (fun e => (n :: ns).all (fun m => !overlaps e m)) := by
      rw [filter_filter_bool]
      simp [List.all_cons]
    have hchain : (((mergeStep w n).filter
          (fun e => ns.all (fun m => !overlaps e m))).map fieldsOf).Perm
        ((w.filter (fun e => (n :: ns).all (fun m => !overlaps e m))).map fieldsOf
          ++ [fieldsOf n]) := by
      rw [hA]
      refine hB.trans ?_
      rw [hC, hD, hE]
    refine h1.trans ?_
    refine (List.Perm.append_left (ns.map fieldsOf) hchain).trans ?_
    have hmid : (ns.map fieldsOf
          ++ ((w.filter (fun e => (n :: ns).all (fun m => !overlaps e m))).map fieldsOf
            ++ [fieldsOf n])).Perm
        (fieldsOf n :: (ns.map fieldsOf
          ++ (w.filter (fun e => (n :: ns).all (fun m => !overlaps e m))).map fieldsOf)) := by
      rw [← List.append_assoc]
      exact List.perm_append_singleton _ _
    refine hmid.trans ?_
    simp only [List.map_cons, List.cons_append]
    exact List.Perm.refl _

/-- C1 (amended): for every pair of parsed input tracks whose new track has
no two mutually (strictly) overlapping cues, the merged output consists, as
a multiset of (start, end, text) field triples, of exactly the new-track
cues together with the existing-track cues that strictly overlap no
new-track cue; in particular every new cue and every non-overlapped
existing cue appears with unmodified fields, and every overlapped existing
cue contributes nothing (it is dropped whole, never trimmed or split).
(Without the no-self-overlap proviso the claim fails: a later new cue
deletes an earlier overlapping new cue — see the counterexample.) -/
theorem merge_cue_multiset (s1 s2 : String) (subs1 subs2 : List Subtitle)
    (h1 : parse_srt s1 = some subs1) (h2 : parse_srt s2 = some subs2)
    (hnew : List.Pairwise (fun a b => overlaps a b = false) subs2) :
    ((mergeCues subs1 subs2).map fieldsOf).Perm
      (subs2.map fieldsOf
        ++ (subs1.filter (fun e => subs2.all (fun n => !overlaps e n))).map fieldsOf) :=
  mergeCues_fields_perm subs2 subs1 hnew

/-- Witness for the amended C1 on two concrete one-cue tracks. -/
theorem merge_cue_multiset_wit :
    ((mergeCues [⟨"1", 0, 2000000, "A"⟩] [⟨"1", 1000000, 3000000, "B"⟩]).map fieldsOf).Perm
      (([(⟨"1", 1000000, 3000000, "B"⟩ : Subtitle)]).map fieldsOf
        ++ (([(⟨"1", 0, 2000000, "A"⟩ : Subtitle)]).filter
            (fun e => [(⟨"1", 1000000, 3000000, "B"⟩ : Subtitle)].all
              (fun n => !overlaps e n))).map fieldsOf) :=
  merge_cue_multiset "1\n00:00:00,000 --> 00:00:02,000\nA"
    "1\n00:00:01,000 --> 00:00:03,000\nB" _ _ (by decide) (by decide) (by simp)

/-- Counterexample to C1 as stated: the new track holds two cues that
strictly overlap each other, (0s-10s, "A") then (5s-6s, "B"); inserting the
second removes the first from the working set, so the "A" cue of the new
track does not appear in the merged output at all. -/
theorem merge_new_cue_lost_cex :
    parse_srt "1\n00:00:00,000 --> 00:00:10,000\nA\n\n2\n00:00:05,000 --> 00:00:06,000\nB"
        = some [⟨"1", 0, 10000000, "A"⟩, ⟨"2", 5000000, 6000000, "B"⟩] ∧
    parse_srt "" = some [] ∧
    ¬ (∀ n ∈ [(⟨"1", 0, 10000000, "A"⟩ : Subtitle), ⟨"2", 5000000, 6000000, "B"⟩],
        ∃ c ∈ mergeCues ([] : List Subtitle)
          [⟨"1", 0, 10000000, "A"⟩, ⟨"2", 5000000, 6000000, "B"⟩],
          fieldsOf c = fieldsOf n) := by
  refine ⟨by decide, by decide, ?_⟩
  decide

/-! Self-merge: working sets that agree on all fields behave identically,
and merging a well-formed track into itself only re-indexes it. -/

theorem forall₂_fields_refl (l : List Subtitle) :
    List.Forall₂ (fun a b => fieldsOf a = fieldsOf b) l l := by
  induction l with
  | nil => exact List.Forall₂.nil
  | cons c cs ih => exact List.Forall₂.cons rfl ih

theorem reindexAll_forall₂ (l : List Subtitle) :
    List.Forall₂ (fun a b => fieldsOf a = fieldsOf b) (reindexAll l) l := by
  unfold reindexAll
  have h : ∀ i, List.Forall₂ (fun a b => fieldsOf a = fieldsOf b) (reindexFrom i l) l := by
    induction l with
    | nil =>
      intro i
      exact List.Forall₂.nil
    | cons c cs ih =>
      intro i
      exact List.Forall₂.cons rfl (ih (i + 1))
  exact h 1

theorem forall₂_fields_filter {W W2 : List Subtitle}
    (h : List.Forall₂ (fun a b => fieldsOf a = fieldsOf b) W W2) (q : Subtitle → Bool)
    (hq : ∀ a b, fieldsOf a = fieldsOf b → q a = q b) :
    List.Forall₂ (fun a b => fieldsOf a = fieldsOf b) (W.filter q) (W2.filter q) := by
  induction h with
  | nil => exact List.Forall₂.nil
  | @cons a b as bs hf hrest ih =>
    simp only [List.filter_cons]
    rw [hq a b hf]
    cases hqb : q b
    · rw [if_neg (by decide), if_neg (by decide)]
      exact ih
    · rw [if_pos rfl, if_pos rfl]
      exact List.Forall₂.cons hf ih

theorem forall₂_fields_insert {x x2 : Subtitle} (hx : fieldsOf x = fieldsOf x2) :
    ∀ {W W2 : List Subtitle}, List.Forall₂ (fun a b => fieldsOf a = fieldsOf b) W W2 →
      List.Forall₂ (fun a b => fieldsOf a = fieldsOf b) (insertByStart x W)
        (insertByStart x2 W2) := by
  intro W W2 h
  have hst : x.start = x2.start := congrArg (fun t => t.1) hx
  induction h with
  | nil => exact List.Forall₂.cons hx List.Forall₂.nil
  | @cons a b as bs hf hrest ih =>
    have hab : a.start = b.start := congrArg (fun t => t.1) hf
    unfold insertByStart
    by_cases hc : x.start ≤ a.start
    · rw [if_pos hc, if_pos (by omega)]
      exact List.Forall₂.cons hx (List.Forall₂.cons hf hrest)
    · rw [if_neg hc, if_neg (by omega)]
      exact List.Forall₂.cons hf ih

theorem forall₂_fields_sort {W W2 : List Subtitle}
    (h : List.Forall₂ (fun a b => fieldsOf a = fieldsOf b) W W2) :
    List.Forall₂ (fun a b => fieldsOf a = fieldsOf b) (sortByStart W) (sortByStart W2) := by
  induction h with
  | nil => exact List.Forall₂.nil
  | @cons a b as bs hf hrest ih => exact forall₂_fields_insert hf ih

theorem forall₂_fields_append {W W2 V V2 : List Subtitle}
    (h : List.Forall₂ (fun a b => fieldsOf a = fieldsOf b) W W2)
    (h2 : List.Forall₂ (fun a b => fieldsOf a = fieldsOf b) V V2) :
    List.Forall₂ (fun a b => fieldsOf a = fieldsOf b) (W ++ V) (W2 ++ V2) := by
  induction h with
  | nil => exact h2
  | @cons a b as bs hf hrest ih => exact List.Forall₂.cons hf ih

theorem reindexFrom_eq_of_forall₂ {W W2 : List Subtitle}
    (h : List.Forall₂ (fun a b => fieldsOf a = fieldsOf b) W W2) :
    ∀ i, reindexFrom i W = reindexFrom i W2 := by
  induction h with
  | nil =>
    intro i
    rfl
  | @cons a b as bs hf hrest ih =>
    intro i
    have e1 : a.start = b.start := congrArg (fun t => t.1) hf
    have e2 : a.stop = b.stop := congrArg (fun t => t.2.1) hf
    have e3 : a.text = b.text := congrArg (fun t => t.2.2) hf
    simp only [reindexFrom, e1, e2, e3, ih (i + 1)]

theorem mergeStep_congr {W W2 : List Subtitle} (n : Subtitle)
    (h : List.Forall₂ (fun a b => fieldsOf a = fieldsOf b) W W2) :
    mergeStep W n = mergeStep W2 n := by
  unfold mergeStep reindexAll
  apply reindexFrom_eq_of_forall₂
  apply forall₂_fields_sort
  have hq : ∀ a b : Subtitle, fieldsOf a = fieldsOf b
      → (!overlaps a n) = (!overlaps b n) := by
    intro a b hf
    have e1 : a.start = b.start := congrArg (fun t => t.1) hf
    have e2 : a.stop = b.stop := congrArg (fun t => t.2.1) hf
    unfold overlaps
    rw [e1, e2]
  exact forall₂_fields_append (forall₂_fields_filter h _ hq)
    (List.Forall₂.cons rfl List.Forall₂.nil)

theorem mergeStep_self {pre post : List Subtitle} {c : Subtitle}
    (hstrict : AllStrict (pre ++ c :: post)) (hinv : TrackInv (pre ++ c :: post)) :
    mergeStep (pre ++ c :: post) c = reindexAll (pre ++ c :: post) := by
  have hcs : c.start < c.stop := hstrict c (by simp)
  have hinvP : List.Pairwise (fun a b => a.stop ≤ b.start) (pre ++ c :: post) := hinv
  have hinvA := List.pairwise_append.mp hinvP
  have hcross := hinvA.2.2
  have hcpost := (List.pairwise_cons.mp hinvA.2.1).1
  have hprestop : ∀ a ∈ pre, a.stop ≤ c.start := fun a ha => hcross a ha c (by simp)
  have hstrictpp : ∀ a ∈ pre ++ post, a.start < a.stop := by
    intro a ha
    rcases List.mem_append.mp ha with h | h
    · exact hstrict a (List.mem_append_left _ h)
    · exact hstrict a (List.mem_append_right _ (by simp [h]))
  unfold mergeStep
  have hfilter : (pre ++ c :: post).filter (fun e => !overlaps e c) = pre ++ post := by
    rw [List.filter_append, List.filter_cons]
    have hfc : (!overlaps c c) = false := by
      unfold overlaps
      simp [hcs]
    rw [if_neg (by simp [hfc])]
    have hp1 : pre.filter (fun e => !overlaps e c) = pre := by
      rw [List.filter_eq_self]
      intro a ha
      have : overlaps a c = false := overlaps_false_iff.mpr (Or.inr (hprestop a ha))
      simp [this]
    have hp2 : post.filter (fun e => !overlaps e c) = post := by
      rw [List.filter_eq_self]
      intro b hb
      have : overlaps b c = false := overlaps_false_iff.mpr (Or.inl (hcpost b hb))
      simp [this]
    rw [hp1, hp2]
  rw [hfilter]
  have hsorted : List.Pairwise (fun a b => a.start ≤ b.start) (pre ++ post) := by
    have hsub : (pre ++ post).Sublist (pre ++ c :: post) :=
      List.Sublist.append_left (List.Sublist.cons c (List.Sublist.refl post)) pre
    have hppinv : List.Pairwise (fun a b => a.stop ≤ b.start) (pre ++ post) :=
      hinvP.sublist hsub
    refine hppinv.imp_of_mem ?_
    intro a b ha _ hab
    have := hstrictpp a ha
    omega
  have hpre2 : ∀ a ∈ pre, a.start ≤ c.start := by
    intro a ha
    have h1 := hprestop a ha
    have h2 := hstrict a (List.mem_append_left _ ha)
    omega
  have hpost2 : ∀ b ∈ post, c.start < b.start := by
    intro b hb
    have h1 := hcpost b hb
    omega
  rw [List.append_assoc]
  rw [sortByStart_middle c pre post hsorted hpre2 hpost2]

theorem mergeCues_self_aux {cues : List Subtitle} (hstrict : AllStrict cues)
    (hinv : TrackInv cues) :
    ∀ post pre W : List Subtitle, cues = pre ++ post →
      List.Forall₂ (fun a b => fieldsOf a = fieldsOf b) W cues →
      List.foldl mergeStep W post = if post.isEmpty then W else reindexAll cues := by
  intro post
  induction post with
  | nil =>
    intro pre W _ _
    simp
  | cons c post ih =>
    intro pre W hdec hW
    have hstep : mergeStep W c = reindexAll cues := by
      calc mergeStep W c = mergeStep cues c := mergeStep_congr c hW
        _ = mergeStep (pre ++ c :: post) c := by rw [hdec]
        _ = reindexAll (pre ++ c :: post) := mergeStep_self (hdec ▸ hstrict) (hdec ▸ hinv)
        _ = reindexAll cues := by rw [← hdec]
    show List.foldl mergeStep (mergeStep W c) post = _
    rw [hstep]
    cases post with
    | nil => simp
    | cons d post2 =>
      have h2 := ih (pre ++ [c]) (reindexAll cues) (by rw [hdec]; simp) (reindexAll_forall₂ cues)
      simpa using h2

theorem mergeCues_self {cues : List Subtitle} (hstrict : AllStrict cues)
    (hinv : TrackInv cues) : mergeCues cues cues = reindexAll cues := by
  have h := mergeCues_self_aux hstrict hinv cues [] cues rfl (forall₂_fields_refl cues)
  match cues, h with
  | [], _ => rfl
  | c :: rest, h => simpa [mergeCues] using h

/-- C8 (amended): merging a track text into itself, when its cues are
pairwise non-overlapping non-degenerate intervals (the track invariant with
strict cues), yields exactly the same cues re-indexed 1..n and otherwise
unchanged.  (With a degenerate zero-length cue the claim fails: the cue
does not strictly overlap its own copy, so the self-merge duplicates it —
see the counterexample.) -/
theorem merge_self_idem (T : String) (cues : List Subtitle)
    (hp : parse_srt T = some cues) (hstrict : AllStrict cues) (hinv : TrackInv cues) :
    merge_srt_content T T = some (serializeTrack (reindexAll cues)) := by
  unfold merge_srt_content
  rw [hp]
  show some (serializeTrack (mergeCues cues cues)) = _
  rw [mergeCues_self hstrict hinv]

/-- Witness for the amended C8 on a concrete two-cue track. -/
theorem merge_self_idem_wit :
    merge_srt_content "1\n00:00:01,000 --> 00:00:02,000\nA\n\n2\n00:00:03,000 --> 00:00:04,000\nB"
        "1\n00:00:01,000 --> 00:00:02,000\nA\n\n2\n00:00:03,000 --> 00:00:04,000\nB"
      = some (serializeTrack (reindexAll
          [⟨"1", 1000000, 2000000, "A"⟩, ⟨"2", 3000000, 4000000, "B"⟩])) :=
  merge_self_idem _ _ (by decide) (by unfold AllStrict; decide) (by unfold TrackInv; decide)

/-- Counterexample to C8 as stated: a track consisting of the single
zero-length cue [5s, 5s] merged into itself yields that cue twice (the
degenerate interval does not strictly overlap its own copy, so the existing
cue is kept and the new one inserted), not the same content re-indexed. -/
theorem merge_self_dup_cex :
    parse_srt "1\n00:00:05,000 --> 00:00:05,000\nA" = some [⟨"1", 5000000, 5000000, "A"⟩] ∧
    mergeCues [(⟨"1", 5000000, 5000000, "A"⟩ : Subtitle)] [⟨"1", 5000000, 5000000, "A"⟩]
      = [⟨"1", 5000000, 5000000, "A"⟩, ⟨"2", 5000000, 5000000, "A"⟩] ∧
    (mergeCues [(⟨"1", 5000000, 5000000, "A"⟩ : Subtitle)] [⟨"1", 5000000, 5000000, "A"⟩]).length
      = 2 := by
  refine ⟨by decide, by decide, by decide⟩

/-- C10: if the new track parses to zero cues, the merge loop body never
runs, so the output is the existing track's parsed cues serialized with
every field unchanged — including each cue's original index token exactly
as parsed from the input (even when non-numeric or non-contiguous), since
re-indexing happens only inside the per-new-cue loop. -/
theorem merge_empty_new (s1 s2 : String) (subs1 : List Subtitle)
    (h1 : parse_srt s1 = some subs1) (h2 : parse_srt s2 = some []) :
    merge_srt_content s1 s2 = some (serializeTrack subs1) := by
  unfold merge_srt_content
  rw [h1, h2]
  rfl

/-! Generic facts about the str.split model: fuel irrelevance, nonemptiness
of the part list, and the behaviour of the scan on separator-free prefixes,
on a leading separator, and on separator-free strings. -/

theorem consFirst_ne_nil (c : Char) (ps : List (List Char)) : consFirst c ps ≠ [] := by
  cases ps <;> simp [consFirst]

theorem splitFuel_ne_nil (sep : List Char) (fuel : Nat) (cs : List Char) :
    splitFuel sep fuel cs ≠ [] := by
  cases fuel with
  | zero => simp [splitFuel]
  | succ n =>
    cases cs with
    | nil => simp [splitFuel]
    | cons c rest =>
      unfold splitFuel
      by_cases hp : sep.isPrefixOf (c :: rest) = true
      · rw [if_pos hp]
        simp
      · rw [if_neg hp]
        exact consFirst_ne_nil c _

theorem isPrefixOf_append_self (u v : List Char) : List.isPrefixOf u (u ++ v) = true := by
  induction u with
  | nil => simp [List.isPrefixOf]
  | cons a as ih => simp [List.isPrefixOf, ih]

theorem splitFuel_fuel_eq (sep : List Char) :
    ∀ f1 f2 cs, cs.length < f1 → cs.length < f2 →
      splitFuel sep f1 cs = splitFuel sep f2 cs := by
  intro f1
  induction f1 with
  | zero =>
    intro f2 cs h1 h2
    omega
  | succ n ih =>
    intro f2 cs h1 h2
    cases f2 with
    | zero => omega
    | succ m =>
      cases cs with
      | nil => rfl
      | cons c rest =>
        unfold splitFuel
        by_cases hp : sep.isPrefixOf (c :: rest) = true
        · rw [if_pos hp, if_pos hp]
          have hd : (List.drop (sep.length - 1) rest).length ≤ rest.length := by
            simp [List.length_drop]
          have h1' : (List.drop (sep.length - 1) rest).length < n := by
            simp only [List.length_cons] at h1
            omega
          have h2' : (List.drop (sep.length - 1) rest).length < m := by
            simp only [List.length_cons] at h2
            omega
          rw [ih m _ h1' h2']
        · rw [if_neg hp, if_neg hp]
          have h1' : rest.length < n := by
            simp only [List.length_cons] at h1
            omega
          have h2' : rest.length < m := by
            simp only [List.length_cons] at h2
            omega
          rw [ih m rest h1' h2']

theorem pySplit_fuel (sep : List Char) {cs : List Char} {fuel : Nat} (h : cs.length < fuel) :
    splitFuel sep fuel cs = pySplit sep cs :=
  splitFuel_fuel_eq sep fuel (cs.length + 1) cs h (Nat.lt_succ_self _)

/-- Witness for C10: an existing track whose single cue has the
non-numeric index token "abc", merged with the empty string (which parses
to zero cues), keeps that token verbatim. -/
theorem merge_empty_new_wit :
    merge_srt_content "abc\n00:00:01,000 --> 00:00:02,000\nX" ""
      = some (serializeTrack [⟨"abc", 1000000, 2000000, "X"⟩]) :=
  merge_empty_new _ _ _ (by decide) (by decide)

theorem pySplit_append_head_notin (s : Char) (t : List Char) :
    ∀ (a b p : List Char) (ps : List (List Char)), s ∉ a → pySplit (s :: t) b = p :: ps →
      pySplit (s :: t) (a ++ b) = (a ++ p) :: ps := by
  intro a
  induction a with
  | nil =>
    intro b p ps _ hb
    simpa using hb
  | cons x a' ih =>
    intro b p ps hs hb
    have hx : s ≠ x := fun e => hs (by rw [e]; exact List.mem_cons_self x a')
    show pySplit (s :: t) (x :: (a' ++ b)) = ((x :: a') ++ p) :: ps
    unfold pySplit
    simp only [splitFuel]
    have hpre : List.isPrefixOf (s :: t) (x :: (a' ++ b)) = false := by
      show ((s == x) && List.isPrefixOf t (a' ++ b)) = false
      rw [beq_eq_false_iff_ne.mpr hx]
      simp
    rw [if_neg (by simp [hpre])]
    rw [pySplit_fuel (s :: t) (by simp)]
    rw [ih b p ps (fun hm => hs (List.mem_cons_of_mem x hm)) hb]
    simp [consFirst]

theorem pySplit_sep_cut (sep rest : List Char) (hne : sep ≠ []) :
    pySplit sep (sep ++ rest) = [] :: pySplit sep rest := by
  cases sep with
  | nil => exact absurd rfl hne
  | cons s t =>
    show pySplit (s :: t) (s :: (t ++ rest)) = _
    unfold pySplit
    simp only [splitFuel]
    rw [if_pos (show List.isPrefixOf (s :: t) (s :: (t ++ rest)) = true from
      isPrefixOf_append_self (s :: t) rest)]
    have hdrop : List.drop ((s :: t).length - 1) (t ++ rest) = rest := by
      simp only [List.length_cons, Nat.add_sub_cancel]
      exact List.drop_left t rest
    rw [hdrop, pySplit_fuel (s :: t) (by simp; omega)]
    rfl

theorem pySplit_no_sep (s : Char) (t a : List Char) (hs : s ∉ a) :
    pySplit (s :: t) a = [a] := by
  have h := pySplit_append_head_notin s t a [] [] [] hs rfl
  simpa using h

theorem noNlNl_cons_cons (c1 c2 : Char) (r : List Char) :
    noNlNl (c1 :: c2 :: r) = (!(decide (c1 = '\n') && decide (c2 = '\n')) && noNlNl (c2 :: r)) :=
  rfl

theorem noNlNl_tail {c : Char} {l : List Char} (h : noNlNl (c :: l) = true) :
    noNlNl l = true := by
  cases l with
  | nil => rfl
  | cons d r =>
    rw [noNlNl_cons_cons] at h
    simp only [Bool.and_eq_true] at h
    exact h.2

theorem noNlNl_of_all_ne : ∀ l : List Char, (∀ c ∈ l, ¬ c = '\n') → noNlNl l = true
  | [], _ => rfl
  | [_], _ => rfl
  | c1 :: c2 :: r, h => by
    rw [noNlNl_cons_cons]
    rw [noNlNl_of_all_ne (c2 :: r) (fun c hc => h c (List.mem_cons_of_mem c1 hc))]
    have h1 : ¬ c1 = '\n' := h c1 (by simp)
    simp [h1]

theorem noNlNl_append : ∀ a : List Char, ∀ b : List Char, noNlNl a = true → noNlNl b = true →
    (a.getLast? = some '\n' → b.head? ≠ some '\n') → noNlNl (a ++ b) = true
  | [], _, _, hb, _ => hb
  | [x], b, _, hb, hj => by
    cases b with
    | nil => rfl
    | cons d b' =>
      show noNlNl (x :: d :: b') = true
      rw [noNlNl_cons_cons, hb]
      by_cases hx : x = '\n'
      · have hd : ¬ d = '\n' := by
          intro e
          exact hj (by simp [hx]) (by simp [e])
        simp [hd]
      · simp [hx]
  | x :: y :: a', b, ha, hb, hj => by
    show noNlNl (x :: ((y :: a') ++ b)) = true
    rw [noNlNl_cons_cons, Bool.and_eq_true] at ha
    obtain ⟨hxy, hrest⟩ := ha
    have hrec := noNlNl_append (y :: a') b hrest hb
      (fun h => hj (by rw [List.getLast?_cons_cons]; exact h))
    show noNlNl (x :: y :: (a' ++ b)) = true
    rw [noNlNl_cons_cons]
    rw [show (y :: a') ++ b = y :: (a' ++ b) from rfl] at hrec
    rw [hrec, hxy]
    rfl

theorem pySplit_nlnl_skip (a : List Char) : ∀ (b p : List Char) (ps : List (List Char)),
    noNlNl a = true → (a.getLast? = some '\n' → b.head? ≠ some '\n') →
    pySplit ['\n', '\n'] b = p :: ps →
    pySplit ['\n', '\n'] (a ++ b) = (a ++ p) :: ps := by
  induction a with
  | nil =>
    intro b p ps _ _ hb
    simpa using hb
  | cons x a' ih =>
    intro b p ps ha hj hb
    show pySplit ['\n', '\n'] (x :: (a' ++ b)) = ((x :: a') ++ p) :: ps
    unfold pySplit
    simp only [splitFuel]
    have hpre : List.isPrefixOf ['\n', '\n'] (x :: (a' ++ b)) = false := by
      show (('\n' == x) && List.isPrefixOf ['\n'] (a' ++ b)) = false
      by_cases hx : x = '\n'
      · cases a' with
        | nil =>
          have hbh := hj (by simp [hx])
          cases b with
          | nil => simp [List.isPrefixOf]
          | cons d b' =>
            have hd : ¬ d = '\n' := fun e => hbh (by simp [e])
            show (('\n' == x) && (('\n' == d) && List.isPrefixOf [] b')) = false
            rw [beq_eq_false_iff_ne.mpr (fun e => hd e.symm)]
            simp
        | cons y a'' =>
          rw [noNlNl_cons_cons, Bool.and_eq_true] at ha
          obtain ⟨hxy, _⟩ := ha
          simp only [hx, decide_True, Bool.true_and, Bool.not_eq_true'] at hxy
          have hy : ¬ y = '\n' := by
            intro e
            rw [e] at hxy
            simp at hxy
          show (('\n' == x) && (('\n' == y) && _)) = false
          rw [beq_eq_false_iff_ne.mpr (fun e => hy e.symm)]
          simp
      · rw [beq_eq_false_iff_ne.mpr (fun e => hx e.symm)]
        simp
    rw [if_neg (by simp [hpre])]
    rw [pySplit_fuel _ (by simp)]
    have ha' : noNlNl a' = true := noNlNl_tail ha
    have hj' : a'.getLast? = some '\n' → b.head? ≠ some '\n' := by
      intro h
      apply hj
      cases a' with
      | nil => simp at h
      | cons u v => rw [List.getLast?_cons_cons]; exact h
    rw [ih b p ps ha' hj' hb]
    simp [consFirst]

theorem pySplit_nlnl_self (cs : List Char) (h : noNlNl cs = true) :
    pySplit ['\n', '\n'] cs = [cs] := by
  have h2 := pySplit_nlnl_skip cs [] [] [] h (fun _ => by simp) rfl
  simpa using h2

theorem pySplit_nlnl_cut (rest : List Char) :
    pySplit ['\n', '\n'] ('\n' :: '\n' :: rest) = [] :: pySplit ['\n', '\n'] rest := by
  have h := pySplit_sep_cut ['\n', '\n'] rest (by simp)
  simpa using h

/-! "\n".join is a left inverse of splitting on a single newline, and
str.strip is the identity on strings with non-whitespace first and last
characters. -/

theorem joinNl_consFirst (c : Char) (X : List (List Char)) :
    joinNl (consFirst c X) = c :: joinNl X := by
  cases X with
  | nil => rfl
  | cons p ps =>
    cases ps with
    | nil => rfl
    | cons q qs => rfl

theorem joinNl_nil_cons (X : List (List Char)) (hX : X ≠ []) :
    joinNl ([] :: X) = '\n' :: joinNl X := by
  cases X with
  | nil => exact absurd rfl hX
  | cons q qs => rfl

theorem joinNl_splitFuel : ∀ (fuel : Nat) (cs : List Char), cs.length < fuel →
    joinNl (splitFuel ['\n'] fuel cs) = cs := by
  intro fuel
  induction fuel with
  | zero =>
    intro cs h
    omega
  | succ n ih =>
    intro cs h
    cases cs with
    | nil => rfl
    | cons c rest =>
      simp only [splitFuel]
      by_cases hc : c = '\n'
      · have hpre : List.isPrefixOf ['\n'] (c :: rest) = true := by
          show (('\n' == c) && List.isPrefixOf [] rest) = true
          rw [hc]
          simp [List.isPrefixOf]
        rw [if_pos hpre]
        have hd : List.drop (List.length ['\n'] - 1) rest = rest := by simp
        rw [hd]
        rw [joinNl_nil_cons _ (splitFuel_ne_nil _ _ _)]
        rw [ih rest (by simp at h; omega)]
        rw [hc]
      · have hpre : List.isPrefixOf ['\n'] (c :: rest) = false := by
          show (('\n' == c) && _) = false
          rw [beq_eq_false_iff_ne.mpr (fun e => hc e.symm)]
          simp
        rw [if_neg (by simp [hpre])]
        rw [joinNl_consFirst]
        rw [ih rest (by simp at h; omega)]

theorem joinNl_pySplit (cs : List Char) : joinNl (pySplit ['\n'] cs) = cs :=
  joinNl_splitFuel (cs.length + 1) cs (Nat.lt_succ_self _)

theorem mem_of_getLast?_eq {l : List Char} {a : Char} (h : l.getLast? = some a) : a ∈ l := by
  obtain ⟨hn, he⟩ := List.mem_getLast?_eq_getLast (show a ∈ l.getLast? from by simp [h])
  rw [he]
  exact List.getLast_mem hn

theorem dropWhile_eq_self_head {p : Char → Bool} {c : Char} {r : List Char}
    (h : List.dropWhile p (c :: r) = c :: r) : p c = false := by
  cases hp : p c
  · rfl
  · rw [List.dropWhile_cons_of_pos hp] at h
    have hle : (List.dropWhile p r).length ≤ r.length := (List.dropWhile_sublist _).length_le
    have hlen := congrArg List.length h
    simp only [List.length_cons] at hlen
    omega

theorem dropWhile_eq_self_of_head {p : Char → Bool} {l : List Char}
    (h : ∀ c, l.head? = some c → p c = false) : List.dropWhile p l = l := by
  cases l with
  | nil => rfl
  | cons c r => exact List.dropWhile_cons_of_neg (by rw [h c rfl]; simp)

theorem pyStrip_eq_self {l : List Char}
    (hh : ∀ c, l.head? = some c → isPyWs c = false)
    (hl : ∀ c, l.getLast? = some c → isPyWs c = false) : pyStrip l = l := by
  unfold pyStrip
  rw [dropWhile_eq_self_of_head hh]
  rw [dropWhile_eq_self_of_head
    (fun c hc => hl c (by rw [← List.head?_reverse]; exact hc))]
  exact List.reverse_reverse l

theorem pyStrip_eq_self_of_all {l : List Char} (h : ∀ c ∈ l, isPyWs c = false) :
    pyStrip l = l :=
  pyStrip_eq_self (fun c hc => h c (List.mem_of_mem_head? hc))
    (fun c hc => h c (mem_of_getLast?_eq hc))

theorem pyStrip_self_dropWhile {l : List Char} (h : pyStrip l = l) :
    List.dropWhile isPyWs l = l := by
  have h0 : (pyStrip l).length = l.length := by rw [h]
  unfold pyStrip at h0
  simp only [List.length_reverse] at h0
  have h1 : (List.dropWhile isPyWs l).length ≤ l.length :=
    (List.dropWhile_sublist _).length_le
  have h2 : (List.dropWhile isPyWs ((List.dropWhile isPyWs l).reverse)).length
      ≤ (List.dropWhile isPyWs l).length := by
    have h3 : List.Sublist
        (List.dropWhile isPyWs ((List.dropWhile isPyWs l).reverse))
        ((List.dropWhile isPyWs l).reverse) := List.dropWhile_sublist _
    have := h3.length_le
    simpa using this
  exact (List.dropWhile_sublist _).eq_of_length (by omega)

theorem pyStrip_self_head {l : List Char} (h : pyStrip l = l) :
    ∀ c, l.head? = some c → isPyWs c = false := by
  intro c hc
  have hdw := pyStrip_self_dropWhile h
  cases l with
  | nil => simp at hc
  | cons d r =>
    have : d = c := by
      simp only [List.head?_cons, Option.some.injEq] at hc
      exact hc
    rw [← this]
    exact dropWhile_eq_self_head hdw

theorem pyStrip_self_last {l : List Char} (h : pyStrip l = l) :
    ∀ c, l.getLast? = some c → isPyWs c = false := by
  intro c hc
  have hdw := pyStrip_self_dropWhile h
  have h2 : (List.dropWhile isPyWs l.reverse).reverse = l := by
    unfold pyStrip at h
    rw [hdw] at h
    exact h
  have h3 : List.dropWhile isPyWs l.reverse = l.reverse := by
    have h4 := congrArg List.reverse h2
    rwa [List.reverse_reverse] at h4
  have hrh : l.reverse.head? = some c := by rw [List.head?_reverse]; exact hc
  cases hrl : l.reverse with
  | nil =>
    rw [hrl] at hrh
    simp at hrh
  | cons d r =>
    rw [hrl] at hrh h3
    have hd : d = c := by
      simp only [List.head?_cons, Option.some.injEq] at hrh
      exact hrh
    rw [← hd]
    exact dropWhile_eq_self_head h3

theorem pyStrip_cons_ws {c : Char} (hc : isPyWs c = true) (l : List Char) :
    pyStrip (c :: l) = pyStrip l := by
  unfold pyStrip
  rw [List.dropWhile_cons_of_pos hc]

theorem pyStrip_append_ws {c : Char} (hc : isPyWs c = true) (l : List Char) :
    pyStrip (l ++ [c]) = pyStrip l := by
  unfold pyStrip
  rw [List.dropWhile_append]
  by_cases he : (List.dropWhile isPyWs l).isEmpty = true
  · rw [if_pos he]
    have hc1 : List.dropWhile isPyWs [c] = [] := by
      rw [List.dropWhile_cons_of_pos hc]
      rfl
    rw [hc1]
    have hl : List.dropWhile isPyWs l = [] := by simpa using he
    rw [hl]
  · rw [if_neg he]
    have hr : (List.dropWhile isPyWs l ++ [c]).reverse
        = c :: (List.dropWhile isPyWs l).reverse := by simp
    rw [hr, List.dropWhile_cons_of_pos hc]

theorem from_srt_block_congr {b b' : List Char} (h : pyStrip b = pyStrip b') :
    from_srt_block b = from_srt_block b' := by
  unfold from_srt_block
  rw [h]

/-! Character inventories of the serialized pieces: time strings hold only
digits, ':' and ','; the time-range line adds ' ', '-' and '>'; no piece
contains a newline, so a serialized block has newlines exactly at its line
breaks. -/

theorem mem_padZero_digit {w n : Nat} {c : Char} (h : c ∈ padZero w n) : c.isDigit = true := by
  unfold padZero at h
  rcases List.mem_append.mp h with h1 | h1
  · rw [List.eq_of_mem_replicate h1]
    decide
  · exact natDigits_all_digit n c h1

theorem padZero_ne_nil (w n : Nat) : padZero w n ≠ [] := by
  unfold padZero
  simp [natDigits_ne_nil n]

theorem timeChars_chars (h m s ms : Nat) :
    ∀ c ∈ timeChars h m s ms, c.isDigit = true ∨ c = ':' ∨ c = ',' := by
  unfold timeChars
  intro c hc
  rcases List.mem_append.mp hc with h1 | h1
  · exact Or.inl (mem_padZero_digit h1)
  rcases List.mem_cons.mp h1 with h2 | h2
  · exact Or.inr (Or.inl h2)
  rcases List.mem_append.mp h2 with h3 | h3
  · exact Or.inl (mem_padZero_digit h3)
  rcases List.mem_cons.mp h3 with h4 | h4
  · exact Or.inr (Or.inl h4)
  rcases List.mem_append.mp h4 with h5 | h5
  · exact Or.inl (mem_padZero_digit h5)
  rcases List.mem_cons.mp h5 with h6 | h6
  · exact Or.inr (Or.inr h6)
  · exact Or.inl (mem_padZero_digit h6)

theorem time_to_str_chars (t : Nat) :
    ∀ c ∈ time_to_str t, c.isDigit = true ∨ c = ':' ∨ c = ',' := by
  unfold time_to_str
  exact timeChars_chars _ _ _ _

theorem time_to_str_not_nl {t : Nat} : ∀ c ∈ time_to_str t, ¬ c = '\n' := by
  intro c hc
  rcases time_to_str_chars t c hc with h | h | h
  · exact digit_ne h (by decide)
  · subst h; decide
  · subst h; decide

theorem time_to_str_not_sp {t : Nat} : ∀ c ∈ time_to_str t, ¬ c = ' ' := by
  intro c hc
  rcases time_to_str_chars t c hc with h | h | h
  · exact digit_ne h (by decide)
  · subst h; decide
  · subst h; decide

theorem time_to_str_not_ws {t : Nat} : ∀ c ∈ time_to_str t, isPyWs c = false := by
  intro c hc
  rcases time_to_str_chars t c hc with h | h | h
  · exact digit_not_pyWs h
  · subst h; decide
  · subst h; decide

theorem time_to_str_ne_nil (t : Nat) : time_to_str t ≠ [] := by
  unfold time_to_str timeChars
  simp [padZero_ne_nil]

theorem tlChars_not_nl (c : Subtitle) : ∀ ch ∈ tlChars c, ¬ ch = '\n' := by
  unfold tlChars
  intro ch hc
  rcases List.mem_append.mp hc with h1 | h1
  · exact time_to_str_not_nl ch h1
  rcases List.mem_cons.mp h1 with h2 | h2
  · subst h2; decide
  rcases List.mem_cons.mp h2 with h3 | h3
  · subst h3; decide
  rcases List.mem_cons.mp h3 with h4 | h4
  · subst h4; decide
  rcases List.mem_cons.mp h4 with h5 | h5
  · subst h5; decide
  rcases List.mem_cons.mp h5 with h6 | h6
  · subst h6; decide
  · exact time_to_str_not_nl ch h6

theorem tlChars_ne_nil (c : Subtitle) : tlChars c ≠ [] := by
  unfold tlChars
  simp

theorem to_srt_block_eq (c : Subtitle) : to_srt_block c = coreChars c ++ ['\n'] := by
  unfold to_srt_block coreChars tlChars
  simp [List.append_assoc]

theorem serChars_cons_ex (c : Subtitle) (cs : List Subtitle) :
    ∃ X, X ≠ [] ∧ serChars (c :: cs) = coreChars c ++ X := by
  cases cs with
  | nil => exact ⟨['\n'], by simp, to_srt_block_eq c⟩
  | cons d cs' =>
    refine ⟨'\n' :: '\n' :: '\n' :: serChars (d :: cs'), by simp, ?_⟩
    show to_srt_block c ++ '\n' :: '\n' :: serChars (d :: cs') = _
    rw [to_srt_block_eq]
    simp

theorem coreChars_getLast? (c : Subtitle) (h : c.text.data ≠ []) :
    (coreChars c).getLast? = c.text.data.getLast? := by
  unfold coreChars
  rw [List.getLast?_append_of_ne_nil _ (by simp)]
  rw [show ('\n' :: (tlChars c ++ '\n' :: c.text.data))
      = ['\n'] ++ (tlChars c ++ '\n' :: c.text.data) from rfl]
  rw [List.getLast?_append_of_ne_nil _ (by simp)]
  rw [List.getLast?_append_of_ne_nil _ (by simp)]
  rw [show ('\n' :: c.text.data) = ['\n'] ++ c.text.data from rfl]
  rw [List.getLast?_append_of_ne_nil _ h]

theorem noNlNl_core {c : Subtitle}
    (hidx : ∀ ch ∈ c.index.data, ch.isDigit = true)
    (htne : c.text.data ≠ [])
    (hth : ∀ ch, c.text.data.head? = some ch → isPyWs ch = false)
    (htn : noNlNl c.text.data = true) :
    noNlNl (coreChars c) = true := by
  unfold coreChars
  have htl_ne : ∀ ch ∈ tlChars c, ¬ ch = '\n' := tlChars_not_nl c
  have hY : noNlNl (tlChars c ++ '\n' :: c.text.data) = true := by
    apply noNlNl_append
    · exact noNlNl_of_all_ne _ htl_ne
    · cases ht : c.text.data with
      | nil => exact absurd ht htne
      | cons d r =>
        rw [noNlNl_cons_cons]
        have hd : ¬ d = '\n' := by
          have hws := hth d (by rw [ht]; rfl)
          intro e
          rw [e] at hws
          exact absurd hws (by decide)
        rw [show noNlNl (d :: r) = true from by rw [← ht]; exact htn]
        simp [hd]
    · intro hlast
      exact absurd rfl (htl_ne '\n' (mem_of_getLast?_eq hlast))
  have hfull : noNlNl ('\n' :: (tlChars c ++ '\n' :: c.text.data)) = true := by
    cases htl : tlChars c with
    | nil => exact absurd htl (tlChars_ne_nil c)
    | cons u v =>
      rw [htl] at hY
      show noNlNl ('\n' :: ((u :: v) ++ '\n' :: c.text.data)) = true
      show noNlNl ('\n' :: u :: (v ++ '\n' :: c.text.data)) = true
      rw [noNlNl_cons_cons]
      have hu : ¬ u = '\n' := htl_ne u (by rw [htl]; simp)
      rw [show noNlNl (u :: (v ++ '\n' :: c.text.data)) = true from hY]
      simp [hu]
  apply noNlNl_append
  · exact noNlNl_of_all_ne _ (fun ch hc => digit_ne (hidx ch hc) (by decide))
  · exact hfull
  · intro hlast
    exact absurd (hidx '\n' (mem_of_getLast?_eq hlast)) (by decide)

theorem coreChars_head_digit (c : Subtitle) (hne : c.index.data ≠ [])
    (hdig : ∀ ch ∈ c.index.data, ch.isDigit = true) :
    ∀ ch, (coreChars c).head? = some ch → ch.isDigit = true := by
  intro ch h
  unfold coreChars at h
  cases hi : c.index.data with
  | nil => exact absurd hi hne
  | cons d r =>
    rw [hi] at h
    simp only [List.cons_append, List.head?_cons, Option.some.injEq] at h
    rw [← h]
    exact hdig d (by rw [hi]; simp)

theorem pyStrip_core (c : Subtitle)
    (hine : c.index.data ≠ []) (hidig : ∀ ch ∈ c.index.data, ch.isDigit = true)
    (htne : c.text.data ≠ [])
    (htlst : ∀ ch, c.text.data.getLast? = some ch → isPyWs ch = false) :
    pyStrip (coreChars c) = coreChars c := by
  apply pyStrip_eq_self
  · intro ch h
    exact digit_not_pyWs (coreChars_head_digit c hine hidig ch h)
  · intro ch h
    rw [coreChars_getLast? c htne] at h
    exact htlst ch h

/-- Parsing the serialized block of a well-formed cue recovers the cue:
the line split isolates the index token, the time-range line and the text
lines; the time-range line splits on " --> " into the two rendered times,
which strptime maps back to the original microsecond values; and joining
and stripping the text lines gives back the text. -/
theorem from_srt_block_core (c : Subtitle)
    (h1 : c.start < 86400000000) (h2 : 1000 ∣ c.start)
    (h3 : c.stop < 86400000000) (h4 : 1000 ∣ c.stop)
    (htne : c.text.data ≠ [])
    (hth : ∀ ch, c.text.data.head? = some ch → isPyWs ch = false)
    (htlst : ∀ ch, c.text.data.getLast? = some ch → isPyWs ch = false)
    (hine : c.index.data ≠ [])
    (hidig : ∀ ch ∈ c.index.data, ch.isDigit = true) :
    from_srt_block (coreChars c) = some c := by
  unfold from_srt_block
  rw [pyStrip_core c hine hidig htne htlst]
  have hsplit : pySplit ['\n'] (coreChars c)
      = c.index.data :: tlChars c :: pySplit ['\n'] c.text.data := by
    unfold coreChars
    have hinner2 : pySplit ['\n'] ('\n' :: c.text.data) = [] :: pySplit ['\n'] c.text.data := by
      have h5 := pySplit_sep_cut ['\n'] c.text.data (by simp)
      simpa using h5
    have hinner1 : pySplit ['\n'] (tlChars c ++ '\n' :: c.text.data)
        = tlChars c :: pySplit ['\n'] c.text.data := by
      have h5 := pySplit_append_head_notin '\n' [] (tlChars c) ('\n' :: c.text.data)
        [] (pySplit ['\n'] c.text.data)
        (fun hm => tlChars_not_nl c '\n' hm rfl) hinner2
      simpa using h5
    have hinner0 : pySplit ['\n'] ('\n' :: (tlChars c ++ '\n' :: c.text.data))
        = [] :: tlChars c :: pySplit ['\n'] c.text.data := by
      have h6 := pySplit_sep_cut ['\n'] (tlChars c ++ '\n' :: c.text.data) (by simp)
      rw [show (['\n'] ++ (tlChars c ++ '\n' :: c.text.data))
          = ('\n' :: (tlChars c ++ '\n' :: c.text.data)) from rfl] at h6
      rw [hinner1] at h6
      exact h6
    have h7 := pySplit_append_head_notin '\n' [] c.index.data
      ('\n' :: (tlChars c ++ '\n' :: c.text.data))
      [] (tlChars c :: pySplit ['\n'] c.text.data)
      (fun hm => absurd (hidig '\n' hm) (by decide)) hinner0
    simpa using h7
  rw [hsplit]
  dsimp only
  have htr : parse_time_range (tlChars c) = some (c.start, c.stop) := by
    unfold parse_time_range
    have hsplit5 : pySplit [' ', '-', '-', '>', ' '] (tlChars c)
        = [time_to_str c.start, time_to_str c.stop] := by
      unfold tlChars
      have hc2 : pySplit [' ', '-', '-', '>', ' '] (time_to_str c.stop)
          = [time_to_str c.stop] :=
        pySplit_no_sep ' ' ['-', '-', '>', ' '] _ (fun hm => time_to_str_not_sp _ hm rfl)
      have hcut : pySplit [' ', '-', '-', '>', ' ']
          (' ' :: '-' :: '-' :: '>' :: ' ' :: time_to_str c.stop)
          = [] :: [time_to_str c.stop] := by
        have h8 := pySplit_sep_cut [' ', '-', '-', '>', ' '] (time_to_str c.stop) (by simp)
        rw [hc2] at h8
        simpa using h8
      have h9 := pySplit_append_head_notin ' ' ['-', '-', '>', ' '] (time_to_str c.start)
        (' ' :: '-' :: '-' :: '>' :: ' ' :: time_to_str c.stop) [] [time_to_str c.stop]
        (fun hm => time_to_str_not_sp _ hm rfl) hcut
      simpa using h9
    rw [hsplit5]
    dsimp only
    have hs1 : strptimeTime ⟨pyStrip (time_to_str c.start)⟩ = some c.start := by
      rw [pyStrip_eq_self_of_all time_to_str_not_ws, strptime_time_to_str h1,
        Nat.div_mul_cancel h2]
    have hs2 : strptimeTime ⟨pyStrip (time_to_str c.stop)⟩ = some c.stop := by
      rw [pyStrip_eq_self_of_all time_to_str_not_ws, strptime_time_to_str h3,
        Nat.div_mul_cancel h4]
    rw [hs1, hs2]
  rw [htr]
  dsimp only
  rw [joinNl_pySplit, pyStrip_eq_self hth htlst]

theorem parse_srt_eq (s : String) : parse_srt s = parseParts (pySplit ['\n', '\n'] s.data) :=
  rfl

theorem parseParts_cons_nl (p : List Char) (ps : List (List Char)) :
    parseParts (('\n' :: p) :: ps) = parseParts (p :: ps) := by
  unfold parseParts
  rw [List.filter_cons, List.filter_cons]
  rw [pyStrip_cons_ws (show isPyWs '\n' = true from by decide) p]
  by_cases hk : (!(pyStrip p).isEmpty) = true
  · rw [if_pos hk, if_pos hk]
    simp only [optMap]
    rw [from_srt_block_congr (pyStrip_cons_ws (show isPyWs '\n' = true from by decide) p)]
  · rw [if_neg hk, if_neg hk]

/-- Splitting the serialization of well-formed cues on blank lines gives
back one block per cue (the later blocks carrying one leading newline and
the final one a trailing newline, both of which stripping removes), so the
whole parse recovers exactly the cue list. -/
theorem parseParts_serChars : ∀ cs : List Subtitle, (∀ c ∈ cs, WfCue c) →
    parseParts (pySplit ['\n', '\n'] (serChars cs)) = some cs := by
  intro cs
  induction cs with
  | nil =>
    intro _
    rfl
  | cons c cs ih =>
    intro hwf
    obtain ⟨hw1, hw2, hw3, hw4, hw5, hw6, hw7, hw8, hw9, hw10⟩ := hwf c (by simp)
    have hcore_nn : noNlNl (coreChars c) = true := noNlNl_core hw10 hw5 hw6 hw8
    have hcore_last : (coreChars c).getLast? = some '\n' → False := by
      intro h
      rw [coreChars_getLast? c hw5] at h
      exact absurd (hw7 '\n' h) (by decide)
    have hfsb : from_srt_block (coreChars c) = some c :=
      from_srt_block_core c hw1 hw2 hw3 hw4 hw5 hw6 hw7 hw9 hw10
    have hcore_ne : coreChars c ≠ [] := by
      unfold coreChars
      cases hi : c.index.data with
      | nil => exact absurd hi hw9
      | cons d r => simp
    have hstrip_core : pyStrip (coreChars c) = coreChars c := pyStrip_core c hw9 hw10 hw5 hw7
    cases cs with
    | nil =>
      show parseParts (pySplit ['\n', '\n'] (serChars [c])) = some [c]
      rw [show serChars [c] = to_srt_block c from rfl, to_srt_block_eq]
      have hnn : noNlNl (coreChars c ++ ['\n']) = true := by
        apply noNlNl_append _ _ hcore_nn (by decide)
        intro h
        exact (hcore_last h).elim
      rw [pySplit_nlnl_self _ hnn]
      unfold parseParts
      rw [List.filter_cons]
      have hstr : pyStrip (coreChars c ++ ['\n']) = coreChars c := by
        rw [pyStrip_append_ws (show isPyWs '\n' = true from by decide), hstrip_core]
      have hkept : (!(pyStrip (coreChars c ++ ['\n'])).isEmpty) = true := by
        rw [hstr]
        cases hcc : coreChars c with
        | nil => exact absurd hcc hcore_ne
        | cons x xs => simp
      rw [if_pos hkept]
      rw [List.filter_nil]
      simp only [optMap]
      rw [from_srt_block_congr (show pyStrip (coreChars c ++ ['\n']) = pyStrip (coreChars c)
        from by rw [hstr, hstrip_core]), hfsb]
    | cons d cs' =>
      have hser : serChars (c :: d :: cs')
          = coreChars c ++ ('\n' :: '\n' :: '\n' :: serChars (d :: cs')) := by
        show to_srt_block c ++ '\n' :: '\n' :: serChars (d :: cs') = _
        rw [to_srt_block_eq]
        simp
      obtain ⟨p, ps, hps⟩ : ∃ p ps, pySplit ['\n', '\n'] (serChars (d :: cs')) = p :: ps := by
        cases hx : pySplit ['\n', '\n'] (serChars (d :: cs')) with
        | nil => exact absurd hx (splitFuel_ne_nil _ _ _)
        | cons p ps => exact ⟨p, ps, rfl⟩
      obtain ⟨_, _, _, _, _, _, _, _, hd9, hd10⟩ := hwf d (by simp)
      have hhead : (serChars (d :: cs')).head? ≠ some '\n' := by
        obtain ⟨X, _, hX⟩ := serChars_cons_ex d cs'
        rw [hX]
        cases hi : d.index.data with
        | nil => exact absurd hi hd9
        | cons e r =>
          unfold coreChars
          rw [hi]
          simp only [List.cons_append, List.head?_cons]
          intro h
          have he : e = '\n' := by simpa using h
          exact absurd (hd10 e (by rw [hi]; simp)) (by rw [he]; decide)
      have hskip1 : pySplit ['\n', '\n'] ('\n' :: serChars (d :: cs'))
          = ('\n' :: p) :: ps := by
        have h5 := pySplit_nlnl_skip ['\n'] (serChars (d :: cs')) p ps (by decide)
          (fun _ => hhead) hps
        simpa using h5
      have hcut : pySplit ['\n', '\n'] ('\n' :: '\n' :: ('\n' :: serChars (d :: cs')))
          = [] :: ('\n' :: p) :: ps := by
        rw [pySplit_nlnl_cut, hskip1]
      have hsplitall : pySplit ['\n', '\n'] (serChars (c :: d :: cs'))
          = coreChars c :: ('\n' :: p) :: ps := by
        rw [hser]
        have h6 := pySplit_nlnl_skip (coreChars c)
          ('\n' :: '\n' :: '\n' :: serChars (d :: cs'))
          [] (('\n' :: p) :: ps) hcore_nn (fun h => (hcore_last h).elim) hcut
        simpa using h6
      rw [hsplitall]
      unfold parseParts
      rw [List.filter_cons]
      have hkept : (!(pyStrip (coreChars c)).isEmpty) = true := by
        rw [hstrip_core]
        cases hcc : coreChars c with
        | nil => exact absurd hcc hcore_ne
        | cons x xs => simp
      rw [if_pos hkept]
      simp only [optMap]
      rw [hfsb]
      have htail : optMap from_srt_block
          (List.filter (fun b => !(pyStrip b).isEmpty) (('\n' :: p) :: ps))
          = some (d :: cs') := by
        show parseParts (('\n' :: p) :: ps) = some (d :: cs')
        rw [parseParts_cons_nl]
        rw [← hps]
        exact ih (fun x hx => hwf x (List.mem_cons_of_mem c hx))
      rw [htail]

/-- C7 (amended): parse_srt inverts serializeTrack on every cue sequence
whose indices are the contiguous ascending 1-based sequence, provided each
cue is well-formed for the format: start and end below 24 hours and at
whole-millisecond resolution (time_to_str truncates to milliseconds and
strptime rejects an hour field above 23), and a nonempty text that is
already stripped and contains no blank line (to_srt_block/parse_srt give
the text no escaping, so a "\n\n" inside it would be read as a cue
boundary — see the counterexample). -/
theorem format_roundtrip (cues : List Subtitle)
    (hidx : ∀ i (h : i < cues.length), (cues.get ⟨i, h⟩).index = natStr (i + 1))
    (hwf : ∀ c ∈ cues, c.start < 86400000000 ∧ 1000 ∣ c.start ∧ c.stop < 86400000000 ∧
      1000 ∣ c.stop ∧ c.text.data ≠ [] ∧ pyStrip c.text.data = c.text.data ∧
      noNlNl c.text.data = true) :
    parse_srt (serializeTrack cues) = some cues := by
  rw [parse_srt_eq]
  rw [show (serializeTrack cues).data = serChars cues from rfl]
  apply parseParts_serChars
  intro c hc
  obtain ⟨h1, h2, h3, h4, h5, h6, h7⟩ := hwf c hc
  obtain ⟨i, hig⟩ := List.mem_iff_get.mp hc
  have hidxc : c.index = natStr (i.val + 1) := by
    rw [← hig]
    exact hidx i.val i.isLt
  refine ⟨h1, h2, h3, h4, h5, pyStrip_self_head h6, pyStrip_self_last h6, h7, ?_, ?_⟩
  · rw [hidxc]
    exact natDigits_ne_nil _
  · rw [hidxc]
    exact natDigits_all_digit _

/-- Witness for the amended C7 on a concrete one-cue track. -/
theorem format_roundtrip_wit :
    parse_srt (serializeTrack [⟨"1", 0, 1000000, "Hi"⟩])
      = some [⟨"1", 0, 1000000, "Hi"⟩] :=
  format_roundtrip _
    (by
      intro i h
      simp only [List.length_cons, List.length_nil] at h
      have hi : i = 0 := by omega
      subst hi
      show (⟨"1", 0, 1000000, "Hi"⟩ : Subtitle).index = natStr (0 + 1)
      decide)
    (by
      intro c hc
      have hce : c = ⟨"1", 0, 1000000, "Hi"⟩ := by simpa using hc
      subst hce
      exact ⟨by decide, by decide, by decide, by decide, by decide, by decide, by decide⟩)

/-- Counterexample to C7 as stated: the one-cue track whose text is
"A\x7bnewline\x7d\x7bnewline\x7dB" has contiguous ascending 1-based
indices, yet parsing its serialization fails outright — the blank line
inside the text is taken as a cue boundary, and the trailing "B" block has
no time-range line. -/
theorem format_roundtrip_cex :
    (∀ i (h : i < ([(⟨"1", 0, 1000000, "A\n\nB"⟩ : Subtitle)] : List Subtitle).length),
      (([(⟨"1", 0, 1000000, "A\n\nB"⟩ : Subtitle)] : List Subtitle).get ⟨i, h⟩).index
        = natStr (i + 1)) ∧
    parse_srt (serializeTrack [(⟨"1", 0, 1000000, "A\n\nB"⟩ : Subtitle)]) = none := by
  constructor
  · intro i h
    simp only [List.length_cons, List.length_nil] at h
    have hi : i = 0 := by omega
    subst hi
    show (⟨"1", 0, 1000000, "A\n\nB"⟩ : Subtitle).index = natStr (0 + 1)
    decide
  · decide

end SubGen
